import Mathlib

/-!
Verification development for the type-generation core of `scripts/build-types.ts`:
the path-unflattening tree builder (`unflattenAndResolveTypes`), the type
resolver (`resolveType` / `getBaseType`) and the declaration emitter
(`stringifyTypes` / `stringifyObject`), together with the per-entity entry
generators (`generateObsEventTypes`, `generateObsRequestTypes`,
`generateObsResponseTypes`).

Modelling conventions:
* JavaScript strings are Lean `String`s; `name.split(sep)` for a one-character
  separator is `splitCh`, `String.prototype.substring` with its clamp-and-swap
  semantics is `jsSubstring`, `lastIndexOf` is `lastIdxOf`, and
  `[..].join(sep)` for the newline separator is `joinNl`.
* A JavaScript object used as an ordered string-keyed record (the `Tree` type
  `Record<string, AnyType>`) is an association list `List (String × AnyType)`;
  assignment `o[k] = v` is `setProp`, which overwrites in place when the key
  exists (keeping its position, as JS objects do) and appends otherwise.
* Thrown exceptions are `Except.error`.  The source interpolates
  `JSON.stringify` dumps of the offending node and item into its error
  messages; the fixed leading phrase of each message is kept and the
  diagnostic payload is omitted (no claim depends on it).
* Optional JS object members (`optional?: boolean`, `jsdoc?: string`, and the
  raw descriptor members `valueOptional`/`valueRestrictions`/
  `valueOptionalBehavior`) are `Option` values, `none` meaning the member is
  absent; JS truthiness of an optional string is `strTruthy` (absent, `null`
  and `""` are falsy), and of an optional boolean is `= some true`.
* `getBaseType` recurses on the substring between `Array<` and the last `>`;
  on malformed inputs such as `"Array<x"` the JS original recurses forever
  (crashing with a stack-overflow exception), so the Lean version carries a
  fuel counter that is large enough for every terminating input and turns the
  JS stack overflow into `Except.error "call stack exceeded"`.
-/

namespace BuildTypes

/-- Split a character list at every occurrence of `c` (JS `split` on a
one-character separator): `""` gives `[""]`, separators at the ends give empty
pieces. -/
def splitChAux (c : Char) : List Char → List Char → List String
  | [], acc => [String.mk acc.reverse]
  | x :: xs, acc =>
    if x = c then String.mk acc.reverse :: splitChAux c xs []
    else splitChAux c xs (x :: acc)

/-- `s.split(c)` for a one-character separator `c`. -/
def splitCh (c : Char) (s : String) : List String :=
  splitChAux c s.data []

/-- `[..].join("\n")` on a list of strings. -/
def joinNl : List String → String
  | [] => ("")
  | [s] => s
  | s :: rest => s ++ ("\n") ++ joinNl rest

/-- `s.startsWith(pre)`. -/
def strStartsWith (s pre : String) : Bool :=
  pre.data.isPrefixOf s.data

/-- JS `String.prototype.substring(a, b)`: each index is clamped into
`[0, length]` and the two are swapped when out of order. -/
def jsSubData (l : List Char) (a b : Int) : List Char :=
  let n : Int := l.length
  let a2 : Int := min (max a 0) n
  let b2 : Int := min (max b 0) n
  let lo : Nat := (min a2 b2).toNat
  let hi : Nat := (max a2 b2).toNat
  (l.drop lo).take (hi - lo)

/-- JS `s.substring(a, b)`. -/
def jsSubstring (s : String) (a b : Int) : String :=
  String.mk (jsSubData s.data a b)

/-- JS `s.lastIndexOf(c)`, `-1` when absent. -/
def lastIdxOf (s : String) (c : Char) : Int :=
  match s.data.reverse.findIdx? (fun x => x = c) with
  | some i => (s.data.length : Int) - 1 - i
  | none => -1

/-- JS truthiness of an optional/nullable string member: `none` models an
absent or `null` member, and the empty string is falsy too. -/
def strTruthy : Option String → Bool
  | none => false
  | some s => s != ("")

/-- One flat field descriptor, the runtime shape of an element of
`requestFields` / `responseFields` / `dataFields` in `protocol.json`.  The
union of the source `OBSRequestField | OBSResponseField` is discriminated purely by
presence of the `valueOptional` member (`isObsRequestField`), so the three
member kinds that only request fields declare are `Option`s with `none`
meaning "member absent from the raw object". -/
structure FieldDesc where
  valueName : String
  valueType : String
  valueDescription : String
  valueRestrictions : Option String
  valueOptional : Option Bool
  valueOptionalBehavior : Option String
deriving DecidableEq, Repr

/-- `isObsRequestField`: the type guard of the source, testing `valueOptional in val`. -/
def isObsRequestField (f : FieldDesc) : Bool :=
  f.valueOptional.isSome

/-- The type-tree node (`AnyType` in the source).  Each constructor carries the
`optional?` and `jsdoc?` annotation members; `jsonvalue` keeps its (always
empty) `properties` member exactly as the source builds it, and the
element of `arr` is an arbitrary node because the runtime of the source
erases the `as`-cast on `items` and enforces nothing. -/
inductive AnyType where
  | prim (kind : String) (optional : Option Bool) (jsdoc : Option String)
  | jsonvalue (properties : List (String × AnyType)) (optional : Option Bool) (jsdoc : Option String)
  | obj (properties : List (String × AnyType)) (optional : Option Bool) (jsdoc : Option String)
  | arr (items : AnyType) (optional : Option Bool) (jsdoc : Option String)

/-- The `optional` annotation member of a node. -/
def AnyType.getOptional : AnyType → Option Bool
  | .prim _ o _ => o
  | .jsonvalue _ o _ => o
  | .obj _ o _ => o
  | .arr _ o _ => o

/-- The `jsdoc` annotation member of a node. -/
def AnyType.getJsdoc : AnyType → Option String
  | .prim _ _ j => j
  | .jsonvalue _ _ j => j
  | .obj _ _ j => j
  | .arr _ _ j => j

/-- Overwrite the two annotation members of a node, leaving its shape alone. -/
def AnyType.withAnn : AnyType → Option Bool → String → AnyType
  | .prim k _ _, o, j => .prim k o (some j)
  | .jsonvalue p _ _, o, j => .jsonvalue p o (some j)
  | .obj p _ _, o, j => .obj p o (some j)
  | .arr i _ _, o, j => .arr i o (some j)

/-- Read `props[key]` from an ordered record. -/
def getProp : List (String × AnyType) → String → Option AnyType
  | [], _ => none
  | (k, v) :: rest, key => if k = key then some v else getProp rest key

/-- JS assignment `props[key] = v`: replace in place when the key exists
(keeping its insertion position), append otherwise. -/
def setProp : List (String × AnyType) → String → AnyType → List (String × AnyType)
  | [], key, v => [(key, v)]
  | (k, w) :: rest, key, v =>
    if k = key then (k, v) :: rest else (k, w) :: setProp rest key v

/-- `getBaseType`, fueled (see the file header): `Array<T>` peels the prefix
and recurses on `substring(6, lastIndexOf('>'))`; the `switch` over the fixed
vocabulary is the if-chain; anything else throws `Unknown type: <name>`. -/
def getBaseTypeF : Nat → String → Except String AnyType
  | 0, _ => .error ("call stack exceeded")
  | fuel + 1, inType =>
    if strStartsWith inType ("Array<") then
      (getBaseTypeF fuel (jsSubstring inType 6 (lastIdxOf inType '>'))).map
        (fun sub => .arr sub none none)
    else if inType = ("Boolean") then .ok (.prim ("boolean") none none)
    else if inType = ("String") then .ok (.prim ("string") none none)
    else if inType = ("Number") then .ok (.prim ("number") none none)
    else if inType = ("Object") then .ok (.obj [] none none)
    else if inType = ("Any") then .ok (.jsonvalue [] none none)
    else .error (("Unknown type: ") ++ inType)

/-- `getBaseType(inType)`.  The fuel `length + 1` covers every input on which
the JS original terminates, since each `Array<` peel strictly shortens the
string. -/
def getBaseType (inType : String) : Except String AnyType :=
  getBaseTypeF (inType.data.length + 1) inType

/-- The jsdoc string `resolveType` ends up storing on the node: the
description, then — only when the descriptor passes `isObsRequestField` — the
`@restrictions` and `@defaultValue` lines appended by the two truthiness
guards.  (The source assigns `type.jsdoc = ...` and then `+=`s; the net string
is factored out here.) -/
def annotateJsdoc (f : FieldDesc) : String :=
  if isObsRequestField f then
    f.valueDescription
      ++ (if strTruthy f.valueRestrictions then ("\n@restrictions ") ++ f.valueRestrictions.getD ("") else (""))
      ++ (if strTruthy f.valueOptionalBehavior then ("\n@defaultValue ") ++ f.valueOptionalBehavior.getD ("") else (""))
  else f.valueDescription

/-- The `optional` member `resolveType` ends up storing: the source writes
`type.optional = valueOptional` inside the `isObsRequestField` branch and
leaves the member absent otherwise, which is `f.valueOptional` in both cases
(`isObsRequestField` is exactly `f.valueOptional.isSome`). -/
def annotateOpt (f : FieldDesc) : Option Bool :=
  f.valueOptional

/-- `resolveType(field)`: resolve the declared type, then attach the jsdoc and
optionality annotations. -/
def resolveType (field : FieldDesc) : Except String AnyType :=
  (getBaseType field.valueType).map
    (fun t => t.withAnn (annotateOpt field) (annotateJsdoc field))

/-- The child the walk continues into for one non-leaf segment: the existing
property when present, otherwise the synthesized container — an
array-of-empty-object when the lookahead (`parts[i + 1]`) is `*`, an empty
object otherwise. -/
def childOf (props : List (String × AnyType)) (nodeName : String)
    (rest : List String) : AnyType :=
  match getProp props nodeName with
  | some c => c
  | none =>
    if rest.head? = some ("*") then .arr (.obj [] none none) none none
    else .obj [] none none

/-- The walk of the inner `parts.forEach` loop plus the three steps after it
(trailing-`*` check, object check, leaf assignment), as a recursion over the
non-leaf segments.  Mirrors the order of checks in the source exactly:

* a `*` segment requires the current node to be an array-of-object and then
  descends into the element — and, like the source (which has no `else` after
  that branch), **falls through** to the ordinary segment handling with the
  name `*`, so a property literally called `*` is looked up or created inside
  the element object;
* a non-object current node is a structural conflict;
* an absent property is synthesized as array-of-empty-object when the next
  segment (lookahead `parts[i + 1]`) is `*`, as an empty object otherwise;
* after all non-leaf segments, a `*` leaf throws, a non-object current node
  throws, and otherwise `resolveType item` is assigned under the leaf name.

The in-place mutation of the shared tree is rendered functionally: the updated
child is written back with `setProp`, and `rewrap` rebuilds the enclosing
array node when the walk descended through `items`. -/
def walkAssign : AnyType → List String → String → FieldDesc → Except String AnyType
  | node, [], lastPart, item =>
    if lastPart = ("*") then .error ("Need to add last * handler")
    else
      match node with
      | .obj props o j =>
        (resolveType item).map (fun leaf => .obj (setProp props lastPart leaf) o j)
      | _ => .error ("Current node is not an object")
  | node, nodeName :: rest, lastPart, item =>
    let afterStar : Except String (AnyType × (AnyType → AnyType)) :=
      if nodeName = ("*") then
        match node with
        | .arr (.obj ip io ij) ao aj =>
          .ok (.obj ip io ij, fun inner => .arr inner ao aj)
        | _ => .error ("Unexpected object already exists for * key")
      else .ok (node, fun inner => inner)
    match afterStar with
    | .error e => .error e
    | .ok (cur, rewrap) =>
      match cur with
      | .obj props o j =>
        (walkAssign (childOf props nodeName rest) rest lastPart item).map
          (fun cnew => rewrap (.obj (setProp props nodeName cnew) o j))
      | _ => .error ("Unexpected current object type")

/-- Process one descriptor into the tree: split the path at dots, take the
final segment as the leaf name and walk the rest. -/
def addItem (root : AnyType) (item : FieldDesc) : Except String AnyType :=
  let parts := splitCh '.' item.valueName
  walkAssign root parts.dropLast (parts.getLastD ("")) item

/-- The sort key: the number of `.` characters in the path
(`valueName.match(/\./g)?.length ?? 0`). -/
def dotCount (s : String) : Nat :=
  s.data.count '.'

/-- Stable insertion of one element into a depth-sorted list: an element goes
before the first strictly deeper one, so equal depths keep their original
relative order — the behavior of `Array.prototype.sort` (a stable sort since
ES2019) under the comparator `aDots - bDots`. -/
def insertByDepth (x : FieldDesc) : List FieldDesc → List FieldDesc
  | [] => [x]
  | y :: ys =>
    if dotCount x.valueName ≤ dotCount y.valueName then x :: y :: ys
    else y :: insertByDepth x ys

/-- `items.sort((a, b) => aDots - bDots)` on the copied list: the stable
ascending-by-depth reordering. -/
def sortByDepth : List FieldDesc → List FieldDesc
  | [] => []
  | x :: xs => insertByDepth x (sortByDepth xs)

/-- `items.forEach(...)` over the sorted list, propagating the first thrown
error. -/
def buildTree : AnyType → List FieldDesc → Except String AnyType
  | root, [] => .ok root
  | root, item :: rest =>
    match addItem root item with
    | .error e => .error e
    | .ok root2 => buildTree root2 rest

/-- `unflattenAndResolveTypes(inputItems)`: sort a copy of the input by depth
and build the tree from a fresh empty root object. -/
def unflattenAndResolveTypes (inputItems : List FieldDesc) : Except String AnyType :=
  buildTree (.obj [] none none) (sortByDepth inputItems)

/-- `formatJsDoc(jsdoc)`: the `/** ... */` block with ` * ` line prefixes and
the closing line of the source (a space then star-slash). -/
def formatJsDoc (jsdoc : List String) : String :=
  joinNl ((("/**")) :: jsdoc.map (fun s => (" * ") ++ s) ++ [(" */")])

/-- The numeric value of a digit string, most significant digit first. -/
def strToNatAux : List Char → Nat → Nat
  | [], acc => acc
  | c :: cs, acc => strToNatAux cs (acc * 10 + (c.toNat - ('0').toNat))

/-- Whether a JavaScript property name is an *array index*: the canonical
decimal spelling (no leading zero except `0` itself) of an integer below
`2^32 - 1`.  Such own keys are enumerated before all other string keys, in
ascending numeric order. -/
def isArrayIndexName (s : String) : Bool :=
  !s.data.isEmpty && s.data.all Char.isDigit
    && (s.data.headD ('x') ≠ ('0') || s.data.length == 1)
    && strToNatAux s.data 0 < 4294967295

/-- The numeric value of an array-index name. -/
def numValue (s : String) : Nat :=
  strToNatAux s.data 0

/-- Insertion step of the ascending numeric ordering of array-index keys. -/
def insertByIdx {α : Type} (x : String × α) : List (String × α) → List (String × α)
  | [] => [x]
  | y :: ys =>
    if numValue x.1 ≤ numValue y.1 then x :: y :: ys
    else y :: insertByIdx x ys

/-- Ascending numeric sort of array-index keys (distinct canonical index
names have distinct values, so stability is irrelevant). -/
def sortByIdx {α : Type} : List (String × α) → List (String × α)
  | [] => []
  | x :: xs => insertByIdx x (sortByIdx xs)

/-- The own-key enumeration order of a JavaScript object (what
`Object.entries` walks): array-index keys first, in ascending numeric order,
then all remaining string keys in insertion order. -/
def jsEntries {α : Type} (props : List (String × α)) : List (String × α) :=
  sortByIdx (props.filter (fun kv => isArrayIndexName kv.1))
    ++ props.filter (fun kv => !isArrayIndexName kv.1)

mutual

/-- `stringifyTypes(inputTypes)`: objects render through the
`stringifyObject` logic (inlined here so the mutual recursion is structural;
the named wrapper `stringifyObject` below unfolds to the same term), arrays
render their element and special-case the `JsonObject` spelling, `jsonvalue`
is the `JsonValue` spelling, and a primitive renders as its stored kind
string.

The `forEach` of the source runs over `Object.entries(...)` — the
jsEntries enumeration — and each iteration pushes an optional jsdoc block and
the property line, both computed from that property alone.  Because the
per-property output is independent of the enumeration position, this is
rendered here as `renderProps` (per-property blocks, in storage order)
reordered by `jsEntries` and then concatenated, which produces the identical
line sequence. -/
def stringifyTypes : AnyType → String
  | .obj props _ _ =>
    if props.isEmpty then ("JsonObject")
    else joinNl (("\x7b") :: ((jsEntries (renderProps props)).map Prod.snd).flatten ++ [("\x7d")])
  | .arr items _ _ =>
    let subtype := stringifyTypes items
    if subtype = ("JsonObject") then ("JsonObject[]")
    else ("Array<") ++ subtype ++ (">")
  | .jsonvalue _ _ _ => ("JsonValue")
  | .prim kind _ _ => kind

/-- The per-property output block of the `forEach` of `stringifyObject`,
keyed: for each property, its jsdoc block when the `jsdoc` member is truthy,
then `name` + (`?:` when `optional` is truthy, else `:`) + space + rendered
type + `;`. -/
def renderProps : List (String × AnyType) → List (String × List String)
  | [] => []
  | (key, t) :: rest =>
    (key,
      (if strTruthy t.getJsdoc then [formatJsDoc (splitCh '\n' (t.getJsdoc.getD ("")))] else [])
        ++ [key ++ (if t.getOptional = some true then ("?:") else (":")) ++ (" ") ++ stringifyTypes t ++ (";")])
      :: renderProps rest

end

/-- The `properties` line array built by `stringifyObject`: the per-property
blocks in the `Object.entries` enumeration order, concatenated. -/
def propLines (props : List (String × AnyType)) : List String :=
  ((jsEntries (renderProps props)).map Prod.snd).flatten

/-- `stringifyObject(inputTypes)` on the properties record: an empty record
widens to the `JsonObject` spelling; otherwise the brace-delimited block whose
lines are produced by `propLines`. -/
def stringifyObject (props : List (String × AnyType)) : String :=
  if props.isEmpty then ("JsonObject")
  else joinNl (("\x7b") :: propLines props ++ [("\x7d")])

/-- `stringifyTypes(unflattenAndResolveTypes(fields))`, the composition every
non-empty entity entry uses. -/
def renderEntityFields (fields : List FieldDesc) : Except String String :=
  (unflattenAndResolveTypes fields).map stringifyTypes

/-- One event of `protocol.json`, restricted to the members the generation
core reads. -/
structure OBSEventM where
  eventType : String
  dataFields : List FieldDesc
deriving DecidableEq, Repr

/-- One request of `protocol.json`, restricted to the members the generation
core reads. -/
structure OBSRequestM where
  requestType : String
  requestFields : List FieldDesc
  responseFields : List FieldDesc
deriving DecidableEq, Repr

/-- The per-event entry of `generateObsEventTypes`: the fixed
`<type>: undefined;` marker when there are no data fields, otherwise the
rendered tree. -/
def genEventEntry (ev : OBSEventM) : Except String String :=
  if ev.dataFields.isEmpty then .ok (ev.eventType ++ (": undefined;"))
  else (renderEntityFields ev.dataFields).map
    (fun s => ev.eventType ++ (": ") ++ s ++ (";"))

/-- `generateObsEventTypes(events)`: the per-event entries joined by
newlines (an exception thrown for any event aborts the whole generation). -/
def generateObsEventTypes (events : List OBSEventM) : Except String String :=
  (events.mapM genEventEntry).map joinNl

/-- The per-request entry of `generateObsRequestTypes`: `<type>: never;` when
there are no request fields. -/
def genRequestEntry (req : OBSRequestM) : Except String String :=
  if req.requestFields.isEmpty then .ok (req.requestType ++ (": never;"))
  else (renderEntityFields req.requestFields).map
    (fun s => req.requestType ++ (": ") ++ s ++ (";"))

/-- `generateObsRequestTypes(requests)`. -/
def generateObsRequestTypes (requests : List OBSRequestM) : Except String String :=
  (requests.mapM genRequestEntry).map joinNl

/-- The per-request entry of `generateObsResponseTypes`: the fixed
tab-prefixed `<type>: undefined;` marker when there are no response fields. -/
def genResponseEntry (req : OBSRequestM) : Except String String :=
  if req.responseFields.isEmpty then .ok (("\t") ++ req.requestType ++ (": undefined;"))
  else (renderEntityFields req.responseFields).map
    (fun s => req.requestType ++ (": ") ++ s ++ (";"))

/-- `generateObsResponseTypes(requests)`. -/
def generateObsResponseTypes (requests : List OBSRequestM) : Except String String :=
  (requests.mapM genResponseEntry).map joinNl

/-- The caller-visible effect of one call `unflattenAndResolveTypes(arr)` on
the array `arr` of the caller: the only uses of the argument are
`inputItems.slice(0)` (which allocates the copy that is then sorted) and field
reads of the descriptor records (none of which is written anywhere in the
builder or resolver), so the array the caller holds after the call — returned
here as the second component — is the list it passed in. -/
def unflattenCallerView (inputItems : List FieldDesc) :
    Except String AnyType × List FieldDesc :=
  (unflattenAndResolveTypes inputItems, inputItems)

end BuildTypes

deriving instance DecidableEq for Except

namespace BuildTypes

/-! ### Helper lemmas about the string and record primitives -/

theorem strAppend_right_ne (s x y : String) (h : x ≠ y) : s ++ x ≠ s ++ y := by
  intro hc
  apply h
  apply String.ext
  have hd := congrArg String.data hc
  rw [String.data_append, String.data_append] at hd
  exact List.append_cancel_left hd

theorem splitChAux_not_mem (c : Char) (l acc : List Char) (h : c ∉ l) :
    splitChAux c l acc = [String.mk (acc.reverse ++ l)] := by
  induction l generalizing acc with
  | nil => simp [splitChAux]
  | cons x xs ih =>
    have hx : x ≠ c := fun he => h (he ▸ List.mem_cons_self x xs)
    have hxs : c ∉ xs := fun hm => h (List.mem_cons_of_mem x hm)
    simp [splitChAux, hx, ih _ hxs]

theorem splitCh_eq_self (c : Char) (s : String) (h : c ∉ s.data) :
    splitCh c s = [s] := by
  rw [splitCh, splitChAux_not_mem c s.data [] h]
  rfl

theorem splitChAux_sep (c : Char) (p rest acc : List Char) (h : c ∉ p) :
    splitChAux c (p ++ c :: rest) acc
      = String.mk (acc.reverse ++ p) :: splitChAux c rest [] := by
  induction p generalizing acc with
  | nil => simp [splitChAux]
  | cons x xs ih =>
    have hx : x ≠ c := fun he => h (he ▸ List.mem_cons_self x xs)
    have hxs : c ∉ xs := fun hm => h (List.mem_cons_of_mem x hm)
    simp [splitChAux, hx, ih _ hxs]

theorem data_append3 (p q s : String) :
    (p ++ q ++ s).data = p.data ++ q.data ++ s.data := by
  rw [String.data_append, String.data_append]

theorem splitCh_dot_append (p s : String) (h : ('.' : Char) ∉ p.data) :
    splitCh '.' (p ++ (".") ++ s) = p :: splitCh '.' s := by
  rw [splitCh, data_append3]
  have : (("." : String)).data = ['.'] := rfl
  rw [this]
  have := splitChAux_sep '.' p.data s.data [] h
  simpa [splitCh] using this

theorem splitChAux_ne_nil (c : Char) (l acc : List Char) :
    splitChAux c l acc ≠ [] := by
  induction l generalizing acc with
  | nil => simp [splitChAux]
  | cons x xs ih =>
    by_cases hx : x = c <;> simp [splitChAux, hx, ih]

theorem splitCh_ne_nil (c : Char) (s : String) : splitCh c s ≠ [] :=
  splitChAux_ne_nil c s.data []

theorem setProp_not_mem (props : List (String × AnyType)) (key : String)
    (v : AnyType) (h : key ∉ props.map Prod.fst) :
    setProp props key v = props ++ [(key, v)] := by
  induction props with
  | nil => rfl
  | cons kv rest ih =>
    have hk : kv.1 ≠ key := by
      intro he
      exact h (by simp [he])
    have hrest : key ∉ rest.map Prod.fst := by
      intro hm
      exact h (by simp [hm])
    cases kv with
    | mk k w => simp only [setProp, if_neg (by simpa using hk), ih hrest, List.cons_append]

theorem getProp_cons_self (k : String) (v : AnyType) (rest : List (String × AnyType)) :
    getProp ((k, v) :: rest) k = some v := by
  simp [getProp]

/-! ### Helper lemmas about the depth sort -/

theorem insertByDepth_cons_of_le (x y : FieldDesc) (ys : List FieldDesc)
    (h : dotCount x.valueName ≤ dotCount y.valueName) :
    insertByDepth x (y :: ys) = x :: y :: ys := by
  simp [insertByDepth, h]

theorem sortByDepth_flat (l : List FieldDesc)
    (h : ∀ d ∈ l, dotCount d.valueName = 0) : sortByDepth l = l := by
  induction l with
  | nil => rfl
  | cons x xs ih =>
    have hxs : ∀ d ∈ xs, dotCount d.valueName = 0 :=
      fun d hd => h d (List.mem_cons_of_mem x hd)
    rw [sortByDepth, ih hxs]
    cases xs with
    | nil => rfl
    | cons y ys =>
      apply insertByDepth_cons_of_le
      rw [h x (List.mem_cons_self x _), h y (by simp)]

theorem sortByDepth_pair_le (d1 d2 : FieldDesc)
    (h : dotCount d1.valueName ≤ dotCount d2.valueName) :
    sortByDepth [d1, d2] = [d1, d2] := by
  simp [sortByDepth, insertByDepth, h]

theorem sortByDepth_pair_swap (d1 d2 : FieldDesc)
    (h : dotCount d1.valueName < dotCount d2.valueName) :
    sortByDepth [d2, d1] = [d1, d2] := by
  simp [sortByDepth, insertByDepth, Nat.not_le.mpr h]

theorem mem_insertByDepth (a x : FieldDesc) (l : List FieldDesc) :
    a ∈ insertByDepth x l ↔ a = x ∨ a ∈ l := by
  induction l with
  | nil => simp [insertByDepth]
  | cons y ys ih =>
    by_cases h : dotCount x.valueName ≤ dotCount y.valueName
    · simp [insertByDepth, h]
    · simp [insertByDepth, h, ih]
      tauto

theorem mem_sortByDepth (a : FieldDesc) (l : List FieldDesc) :
    a ∈ sortByDepth l ↔ a ∈ l := by
  induction l with
  | nil => simp [sortByDepth]
  | cons x xs ih => simp [sortByDepth, mem_insertByDepth, ih]

theorem insertByDepth_perm (x : FieldDesc) (l : List FieldDesc) :
    List.Perm (insertByDepth x l) (x :: l) := by
  induction l with
  | nil => simp [insertByDepth]
  | cons y ys ih =>
    by_cases h : dotCount x.valueName ≤ dotCount y.valueName
    · simp [insertByDepth, h]
    · rw [insertByDepth, if_neg h]
      exact (ih.cons y).trans (List.Perm.swap x y ys)

theorem sortByDepth_perm (l : List FieldDesc) : List.Perm (sortByDepth l) l := by
  induction l with
  | nil => simp [sortByDepth]
  | cons x xs ih => exact (insertByDepth_perm x (sortByDepth xs)).trans (ih.cons x)

/-! ### Helper lemmas about `Except` values -/

theorem exists_error_map {f : AnyType → AnyType} {x : Except String AnyType}
    (h : ∃ e, x = .error e) : ∃ e, x.map f = .error e := by
  obtain ⟨e, he⟩ := h
  exact ⟨e, by simp [he, Except.map]⟩

theorem map_eq_ok_any {x : Except String AnyType} {f : AnyType → AnyType} {v : AnyType}
    (h : x.map f = .ok v) : ∃ u, x = .ok u ∧ v = f u := by
  cases x with
  | error e => simp [Except.map] at h
  | ok u =>
    refine ⟨u, rfl, ?_⟩
    simpa [Except.map] using h.symm

/-! ### Shape lemmas for the resolver -/

theorem getBaseTypeF_ok_obj (fuel : Nat) (t : String) (p : List (String × AnyType))
    (o : Option Bool) (j : Option String)
    (h : getBaseTypeF fuel t = .ok (.obj p o j)) : t = ("Object") := by
  cases fuel with
  | zero => simp [getBaseTypeF] at h
  | succ n =>
    rw [getBaseTypeF] at h
    by_cases h1 : strStartsWith t ("Array<")
    · rw [if_pos (by simpa using h1)] at h
      obtain ⟨u, _, hv⟩ := map_eq_ok_any h
      simp at hv
    · rw [if_neg (by simpa using h1)] at h
      split at h
      · simp at h
      · split at h
        · simp at h
        · split at h
          · simp at h
          · split at h
            · assumption
            · split at h
              · simp at h
              · simp at h

theorem resolveType_ok_obj (f : FieldDesc) (p : List (String × AnyType))
    (o : Option Bool) (j : Option String)
    (h : resolveType f = .ok (.obj p o j)) : f.valueType = ("Object") := by
  rw [resolveType] at h
  obtain ⟨u, hu, hv⟩ := map_eq_ok_any h
  cases u with
  | prim k uo uj => simp [AnyType.withAnn] at hv
  | jsonvalue up uo uj => simp [AnyType.withAnn] at hv
  | arr ui uo uj => simp [AnyType.withAnn] at hv
  | obj up uo uj => exact getBaseTypeF_ok_obj _ _ _ _ _ hu

/-! ### Error-propagation lemmas for the builder -/

/-- The last path segment of the dotted name of a descriptor (the `lastPart` that
`unflattenAndResolveTypes` pops off). -/
def lastSegment (name : String) : String :=
  (splitCh '.' name).getLastD ("")

theorem walkAssign_lastStar (segs : List String) :
    ∀ (node : AnyType) (item : FieldDesc),
      ∃ e, walkAssign node segs ("*") item = .error e := by
  induction segs with
  | nil =>
    intro node item
    exact ⟨("Need to add last * handler"), by simp [walkAssign]⟩
  | cons n rest ih =>
    intro node item
    by_cases hn : n = ("*")
    · cases node with
      | arr items ao aj =>
        cases items with
        | obj ip io ij =>
          simp only [walkAssign, hn, if_pos rfl]
          exact exists_error_map (ih _ item)
        | prim k o j => exact ⟨("Unexpected object already exists for * key"), by simp [walkAssign, hn]⟩
        | jsonvalue p o j => exact ⟨("Unexpected object already exists for * key"), by simp [walkAssign, hn]⟩
        | arr i o j => exact ⟨("Unexpected object already exists for * key"), by simp [walkAssign, hn]⟩
      | prim k o j => exact ⟨("Unexpected object already exists for * key"), by simp [walkAssign, hn]⟩
      | jsonvalue p o j => exact ⟨("Unexpected object already exists for * key"), by simp [walkAssign, hn]⟩
      | obj p o j => exact ⟨("Unexpected object already exists for * key"), by simp [walkAssign, hn]⟩
    · cases node with
      | obj props o j =>
        simp only [walkAssign, if_neg hn]
        exact exists_error_map (ih _ item)
      | prim k o j => exact ⟨("Unexpected current object type"), by simp [walkAssign, hn]⟩
      | jsonvalue p o j => exact ⟨("Unexpected current object type"), by simp [walkAssign, hn]⟩
      | arr i o j => exact ⟨("Unexpected current object type"), by simp [walkAssign, hn]⟩

theorem addItem_lastStar (item : FieldDesc)
    (h : lastSegment item.valueName = ("*")) :
    ∀ root, ∃ e, addItem root item = .error e := by
  intro root
  rw [addItem]
  rw [lastSegment] at h
  rw [h]
  exact walkAssign_lastStar _ _ _

theorem buildTree_error_of_mem (items : List FieldDesc) (d : FieldDesc)
    (hd : d ∈ items) (herr : ∀ root, ∃ e, addItem root d = .error e) :
    ∀ root, ∃ e, buildTree root items = .error e := by
  induction items with
  | nil => cases hd
  | cons x xs ih =>
    intro root
    rcases List.mem_cons.mp hd with h1 | h2
    · obtain ⟨e, he⟩ := herr root
      exact ⟨e, by simp [buildTree, h1 ▸ he]⟩
    · cases hx : addItem root x with
      | error e => exact ⟨e, by simp [buildTree, hx]⟩
      | ok root2 =>
        obtain ⟨e, he⟩ := ih h2 root2
        exact ⟨e, by simp [buildTree, hx, he]⟩

/-! ### Further split and list lemmas -/

theorem splitChAux_append (c : Char) (l1 l2 acc : List Char) :
    splitChAux c (l1 ++ c :: l2) acc
      = splitChAux c l1 acc ++ splitChAux c l2 [] := by
  induction l1 generalizing acc with
  | nil => simp [splitChAux]
  | cons x xs ih =>
    by_cases hx : x = c
    · simp [splitChAux, hx, ih]
    · simp [splitChAux, hx, ih]

theorem splitCh_append_sep (p s : String) :
    splitCh '.' (p ++ (".") ++ s) = splitCh '.' p ++ splitCh '.' s := by
  rw [splitCh, data_append3]
  have hd : (("." : String)).data = ['.'] := rfl
  rw [hd]
  have := splitChAux_append '.' p.data s.data []
  simpa [splitCh] using this

/-- Concatenate pieces back with the separator between them: the inverse of
`splitChAux`. -/
def unsplitCh (c : Char) : List String → List Char
  | [] => []
  | [p] => p.data
  | p :: rest => p.data ++ c :: unsplitCh c rest

theorem unsplitCh_splitChAux (c : Char) (l acc : List Char) :
    unsplitCh c (splitChAux c l acc) = acc.reverse ++ l := by
  induction l generalizing acc with
  | nil => simp [splitChAux, unsplitCh]
  | cons x xs ih =>
    by_cases hx : x = c
    · have hne := splitChAux_ne_nil c xs ([] : List Char)
      rw [splitChAux, if_pos hx]
      cases hsp : splitChAux c xs [] with
      | nil => exact absurd hsp hne
      | cons q qs =>
        rw [show unsplitCh c (String.mk acc.reverse :: q :: qs)
            = (String.mk acc.reverse).data ++ c :: unsplitCh c (q :: qs) from rfl]
        rw [← hsp, ih]
        simp [hx]
    · rw [splitChAux, if_neg hx, ih]
      simp

theorem splitCh_injective (c : Char) (s1 s2 : String)
    (h : splitCh c s1 = splitCh c s2) : s1 = s2 := by
  have h1 : unsplitCh c (splitChAux c s1.data []) = s1.data := by
    simpa using unsplitCh_splitChAux c s1.data []
  have h2 : unsplitCh c (splitChAux c s2.data []) = s2.data := by
    simpa using unsplitCh_splitChAux c s2.data []
  apply String.ext
  rw [splitCh, splitCh] at h
  rw [← h1, ← h2, h]

theorem splitChAux_length (c : Char) (l acc : List Char) :
    (splitChAux c l acc).length = l.count c + 1 := by
  induction l generalizing acc with
  | nil => simp [splitChAux]
  | cons x xs ih =>
    by_cases hx : x = c
    · simp [splitChAux, hx, ih, List.count_cons]
    · simp [splitChAux, hx, ih, List.count_cons]

theorem splitCh_length_eq (s : String) :
    (splitCh '.' s).length = dotCount s + 1 :=
  splitChAux_length '.' s.data []

theorem dropLast_append_getLastD {α : Type} (l : List α) (d : α) (h : l ≠ []) :
    l.dropLast ++ [l.getLastD d] = l := by
  induction l generalizing d with
  | nil => exact absurd rfl h
  | cons x xs ih =>
    cases xs with
    | nil => simp [List.getLastD]
    | cons y ys =>
      have h2 := ih (d := x) (by simp)
      simp only [List.getLastD_cons] at h2
      simp only [List.dropLast_cons₂, List.getLastD_cons, List.cons_append]
      exact congrArg (x :: ·) h2

theorem dropLast_append_of_ne_nil {α : Type} (l1 l2 : List α) (h : l2 ≠ []) :
    (l1 ++ l2).dropLast = l1 ++ l2.dropLast := by
  induction l1 with
  | nil => simp
  | cons x xs ih =>
    cases hx : xs ++ l2 with
    | nil =>
      rcases List.append_eq_nil.mp hx with ⟨_, h2⟩
      exact absurd h2 h
    | cons y ys =>
      rw [List.cons_append, hx, List.dropLast_cons₂, ← hx, ih, ← List.cons_append]

/-! ### Path reading in the tree -/

/-- Read-only descent along path segments, mirroring exactly the route the
builder walk takes: a `*` segment requires an array-of-object, steps into its
element and then — like the fall-through in the walk — looks up the property
literally named `*`; any other segment looks itself up in an object node. -/
def getAtPath : AnyType → List String → Option AnyType
  | node, [] => some node
  | node, seg :: rest =>
    if seg = ("*") then
      match node with
      | .arr (.obj ip _ _) _ _ =>
        match getProp ip seg with
        | some c => getAtPath c rest
        | none => none
      | _ => none
    else
      match node with
      | .obj props _ _ =>
        match getProp props seg with
        | some c => getAtPath c rest
        | none => none
      | _ => none

/-- Whether a node is an `ObjectNode`. -/
def isObjA : AnyType → Bool
  | .obj _ _ _ => true
  | _ => false

theorem getProp_setProp_self (props : List (String × AnyType)) (k : String) (v : AnyType) :
    getProp (setProp props k v) k = some v := by
  induction props with
  | nil => simp [setProp, getProp]
  | cons kv rest ih =>
    by_cases hk : kv.1 = k
    · cases kv
      simp_all [setProp, getProp]
    · cases kv
      simp_all [setProp, getProp]

theorem getProp_setProp_ne (props : List (String × AnyType)) (k k2 : String) (v : AnyType)
    (h : k2 ≠ k) : getProp (setProp props k v) k2 = getProp props k2 := by
  induction props with
  | nil => simp [setProp, getProp, Ne.symm h]
  | cons kv rest ih =>
    by_cases hk : kv.1 = k
    · cases kv with
      | mk kk vv =>
        simp only at hk
        subst hk
        simp [setProp, getProp, Ne.symm h]
    · cases kv with
      | mk kk vv =>
        simp only at hk
        simp [setProp, getProp, hk, ih]

theorem setProp_map_fst_mem (props : List (String × AnyType)) (k : String) (v : AnyType)
    (h : k ∈ props.map Prod.fst) :
    (setProp props k v).map Prod.fst = props.map Prod.fst := by
  induction props with
  | nil => simp at h
  | cons kv rest ih =>
    by_cases hk : kv.1 = k
    · cases kv
      simp_all [setProp]
    · cases kv with
      | mk kk vv =>
        simp only at hk
        have hr : k ∈ rest.map Prod.fst := by
          rw [List.map_cons, List.mem_cons] at h
          rcases h with h1 | h1
          · exact absurd h1.symm hk
          · exact h1
        simp [setProp, hk, ih hr]

theorem getProp_some_mem (props : List (String × AnyType)) (k : String) (v : AnyType)
    (h : getProp props k = some v) : k ∈ props.map Prod.fst := by
  induction props with
  | nil => simp [getProp] at h
  | cons kv rest ih =>
    cases kv with
    | mk kk vv =>
      by_cases hk : kk = k
      · simp [hk]
      · rw [getProp, if_neg hk] at h
        simp [ih h]

theorem getProp_eq_none_of_not_mem (props : List (String × AnyType)) (k : String)
    (h : k ∉ props.map Prod.fst) : getProp props k = none := by
  induction props with
  | nil => rfl
  | cons kv rest ih =>
    cases kv with
    | mk kk vv =>
      have hk : kk ≠ k := by
        intro he
        exact h (by simp [he])
      rw [getProp, if_neg hk]
      exact ih (fun hm => h (by simp [hm]))

/-! ### Shape refinements for the resolver -/

theorem getBaseTypeF_ok_obj_fields (fuel : Nat) (t : String) (p : List (String × AnyType))
    (o : Option Bool) (j : Option String)
    (h : getBaseTypeF fuel t = .ok (.obj p o j)) : p = [] := by
  have ht := getBaseTypeF_ok_obj fuel t p o j h
  subst ht
  cases fuel with
  | zero => simp [getBaseTypeF] at h
  | succ n =>
    have hred : getBaseTypeF (n + 1) ("Object") = .ok (.obj [] none none) := rfl
    rw [hred] at h
    injection h with h2
    injection h2 with hp ho hj
    exact hp.symm

theorem resolveType_ok_obj_empty (f : FieldDesc) (p : List (String × AnyType))
    (o : Option Bool) (j : Option String)
    (h : resolveType f = .ok (.obj p o j)) : p = [] := by
  rw [resolveType] at h
  obtain ⟨u, hu, hv⟩ := map_eq_ok_any h
  cases u with
  | prim k uo uj => simp [AnyType.withAnn] at hv
  | jsonvalue up uo uj => simp [AnyType.withAnn] at hv
  | arr ui uo uj => simp [AnyType.withAnn] at hv
  | obj up uo uj =>
    have := getBaseTypeF_ok_obj_fields _ _ _ _ _ hu
    subst this
    simp [AnyType.withAnn] at hv
    exact hv.1

theorem resolveType_not_obj (f : FieldDesc) (t : AnyType)
    (hT : f.valueType ≠ ("Object")) (h : resolveType f = .ok t) :
    isObjA t = false := by
  cases t with
  | obj p o j => exact absurd (resolveType_ok_obj f p o j h) hT
  | prim k o j => rfl
  | jsonvalue p o j => rfl
  | arr i o j => rfl

/-! ### Inversion of a successful walk step -/

theorem walk_nil_ok_inv {root root2 : AnyType} {lastPart : String} {item : FieldDesc}
    (h : walkAssign root [] lastPart item = .ok root2) :
    ¬ lastPart = ("*") ∧ ∃ props o j leaf, root = .obj props o j
      ∧ resolveType item = .ok leaf
      ∧ root2 = .obj (setProp props lastPart leaf) o j := by
  by_cases hl : lastPart = ("*")
  · simp [walkAssign, hl] at h
  · refine ⟨hl, ?_⟩
    cases root with
    | obj props o j =>
      rw [walkAssign, if_neg hl] at h
      obtain ⟨leaf, hres, hr⟩ := map_eq_ok_any h
      exact ⟨props, o, j, leaf, rfl, hres, hr⟩
    | prim k o j => simp [walkAssign, hl] at h
    | jsonvalue p o j => simp [walkAssign, hl] at h
    | arr i o j => simp [walkAssign, hl] at h

theorem walk_cons_ok_inv {root root2 : AnyType} {seg : String} {rest : List String}
    {lastPart : String} {item : FieldDesc}
    (h : walkAssign root (seg :: rest) lastPart item = .ok root2) :
    (seg = ("*") ∧ ∃ props o j ao aj cnew,
        root = .arr (.obj props o j) ao aj
        ∧ walkAssign (childOf props seg rest) rest lastPart item = .ok cnew
        ∧ root2 = .arr (.obj (setProp props seg cnew) o j) ao aj)
    ∨ (¬ seg = ("*") ∧ ∃ props o j cnew,
        root = .obj props o j
        ∧ walkAssign (childOf props seg rest) rest lastPart item = .ok cnew
        ∧ root2 = .obj (setProp props seg cnew) o j) := by
  by_cases hs : seg = ("*")
  · left
    refine ⟨hs, ?_⟩
    subst hs
    cases root with
    | arr items ao aj =>
      cases items with
      | obj ip io ij =>
        simp only [walkAssign, if_pos rfl] at h
        obtain ⟨cnew, hc, hr⟩ := map_eq_ok_any h
        exact ⟨ip, io, ij, ao, aj, cnew, rfl, hc, hr⟩
      | prim k o j => simp [walkAssign] at h
      | jsonvalue p o j => simp [walkAssign] at h
      | arr i o j => simp [walkAssign] at h
    | prim k o j => simp [walkAssign] at h
    | jsonvalue p o j => simp [walkAssign] at h
    | obj p o j => simp [walkAssign] at h
  · right
    refine ⟨hs, ?_⟩
    cases root with
    | obj props o j =>
      simp only [walkAssign, if_neg hs] at h
      obtain ⟨cnew, hc, hr⟩ := map_eq_ok_any h
      exact ⟨props, o, j, cnew, rfl, hc, hr⟩
    | prim k o j => simp [walkAssign, hs] at h
    | jsonvalue p o j => simp [walkAssign, hs] at h
    | arr i o j => simp [walkAssign, hs] at h

/-! ### What a successful walk guarantees -/

theorem walk_ok_last_ne_star {root root2 : AnyType} {front : List String}
    {lastPart : String} {item : FieldDesc}
    (h : walkAssign root front lastPart item = .ok root2) : ¬ lastPart = ("*") := by
  intro hl
  subst hl
  obtain ⟨e, he⟩ := walkAssign_lastStar front root item
  rw [he] at h
  cases h

/-- A successful walk resolves the item and stores the resulting leaf at the
full path (`front ++ [lastPart]`), as `getAtPath` reads it. -/
theorem walk_ok_leaf (front : List String) :
    ∀ (root root2 : AnyType) (lastPart : String) (item : FieldDesc),
      walkAssign root front lastPart item = .ok root2 →
      ∃ leaf, resolveType item = .ok leaf
        ∧ getAtPath root2 (front ++ [lastPart]) = some leaf := by
  induction front with
  | nil =>
    intro root root2 lastPart item h
    obtain ⟨hl, props, o, j, leaf, hroot, hres, hr⟩ := walk_nil_ok_inv h
    refine ⟨leaf, hres, ?_⟩
    subst hr
    simp [getAtPath, hl, getProp_setProp_self]
  | cons seg front2 ih =>
    intro root root2 lastPart item h
    rcases walk_cons_ok_inv h with
      ⟨hs, props, o, j, ao, aj, cnew, hroot, hinner, hr⟩
      | ⟨hs, props, o, j, cnew, hroot, hinner, hr⟩
    · obtain ⟨leaf, hres, hat⟩ := ih _ _ _ _ hinner
      refine ⟨leaf, hres, ?_⟩
      subst hr
      subst hs
      simp [getAtPath, getProp_setProp_self, hat]
    · obtain ⟨leaf, hres, hat⟩ := ih _ _ _ _ hinner
      refine ⟨leaf, hres, ?_⟩
      subst hr
      simp [getAtPath, hs, getProp_setProp_self, hat]

/-! ### A walk that reaches a non-object node at its path prefix fails -/

theorem walk_fails_nonobj_prefix (segsP : List String) :
    ∀ (root n : AnyType) (rest : List String) (lastPart : String) (item : FieldDesc),
      getAtPath root segsP = some n → isObjA n = false →
      ((rest = [] ∧ ¬ lastPart = ("*")) ∨ (∃ q rest2, rest = q :: rest2 ∧ ¬ q = ("*"))) →
      ∃ e, walkAssign root (segsP ++ rest) lastPart item = .error e := by
  induction segsP with
  | nil =>
    intro root n rest lastPart item hat hobj hcond
    rw [getAtPath] at hat
    injection hat with hn
    subst hn
    rcases hcond with ⟨hrest, hl⟩ | ⟨q, rest2, hrest, hq⟩
    · subst hrest
      cases root with
      | obj p o j => simp [isObjA] at hobj
      | prim k o j => exact ⟨("Current node is not an object"), by simp [walkAssign, hl]⟩
      | jsonvalue p o j => exact ⟨("Current node is not an object"), by simp [walkAssign, hl]⟩
      | arr i o j => exact ⟨("Current node is not an object"), by simp [walkAssign, hl]⟩
    · subst hrest
      cases root with
      | obj p o j => simp [isObjA] at hobj
      | prim k o j => exact ⟨("Unexpected current object type"), by simp [walkAssign, hq]⟩
      | jsonvalue p o j => exact ⟨("Unexpected current object type"), by simp [walkAssign, hq]⟩
      | arr i o j => exact ⟨("Unexpected current object type"), by simp [walkAssign, hq]⟩
  | cons sg segs2 ih =>
    intro root n rest lastPart item hat hobj hcond
    by_cases hsg : sg = ("*")
    · subst hsg
      cases root with
      | arr items ao aj =>
        cases items with
        | obj ip io ij =>
          cases hget : getProp ip ("*") with
          | none => simp [getAtPath, hget] at hat
          | some c =>
            simp only [getAtPath, if_pos rfl] at hat
            rw [hget] at hat
            obtain ⟨e, he⟩ := ih c n rest lastPart item hat hobj hcond
            refine ⟨e, ?_⟩
            have hchild : childOf ip ("*") (segs2 ++ rest) = c := by
              simp [childOf, hget]
            simp [walkAssign, hchild, he, Except.map]
        | prim k o j => simp [getAtPath] at hat
        | jsonvalue p o j => simp [getAtPath] at hat
        | arr i o j => simp [getAtPath] at hat
      | obj p o j => simp [getAtPath] at hat
      | prim k o j => simp [getAtPath] at hat
      | jsonvalue p o j => simp [getAtPath] at hat
    · cases root with
      | obj props o j =>
        cases hget : getProp props sg with
        | none => simp [getAtPath, hsg, hget] at hat
        | some c =>
          simp only [getAtPath, if_neg hsg] at hat
          rw [hget] at hat
          obtain ⟨e, he⟩ := ih c n rest lastPart item hat hobj hcond
          refine ⟨e, ?_⟩
          have hchild : childOf props sg (segs2 ++ rest) = c := by
            simp [childOf, hget]
          simp [walkAssign, hsg, hchild, he, Except.map]
      | prim k o j => simp [getAtPath, hsg] at hat
      | jsonvalue p o j => simp [getAtPath, hsg] at hat
      | arr i o j => simp [getAtPath, hsg] at hat

/-! ### A successful walk preserves a non-object node at a position no deeper
than its own write -/

theorem walk_preserves_nonobj (front : List String) :
    ∀ (segsP : List String) (root root2 n : AnyType) (lastPart : String) (item : FieldDesc),
      walkAssign root front lastPart item = .ok root2 →
      getAtPath root segsP = some n → isObjA n = false →
      segsP.length ≤ front.length + 1 →
      front ++ [lastPart] ≠ segsP →
      ∃ n2, getAtPath root2 segsP = some n2 ∧ isObjA n2 = false := by
  induction front with
  | nil =>
    intro segsP root root2 n lastPart item hok hat hobj hlen hne
    obtain ⟨hl, props, o, j, leaf, hroot, hres, hr⟩ := walk_nil_ok_inv hok
    subst hroot
    subst hr
    match segsP with
    | [] =>
      rw [getAtPath] at hat
      injection hat with hn
      rw [← hn] at hobj
      simp [isObjA] at hobj
    | [sg] =>
      have hsg : ¬ sg = ("*") := by
        intro he
        subst he
        simp [getAtPath] at hat
      have hne2 : sg ≠ lastPart := by
        intro he
        exact hne (by rw [he, List.nil_append])
      cases hget : getProp props sg with
      | none => simp [getAtPath, hsg, hget] at hat
      | some c =>
        simp only [getAtPath, if_neg hsg] at hat
        rw [hget] at hat
        refine ⟨n, ?_, hobj⟩
        simp only [getAtPath, if_neg hsg]
        rw [getProp_setProp_ne _ _ _ _ hne2, hget]
        exact hat
    | sg :: s2 :: segs3 =>
      simp at hlen
  | cons seg front2 ih =>
    intro segsP root root2 n lastPart item hok hat hobj hlen hne
    rcases walk_cons_ok_inv hok with
      ⟨hs, props, o, j, ao, aj, cnew, hroot, hinner, hr⟩
      | ⟨hs, props, o, j, cnew, hroot, hinner, hr⟩
    · subst hs
      subst hroot
      subst hr
      match segsP with
      | [] =>
        rw [getAtPath] at hat
        injection hat with hn
        refine ⟨.arr (.obj (setProp props ("*") cnew) o j) ao aj, ?_, ?_⟩
        · rw [getAtPath]
        · rfl
      | sg :: segs2 =>
        by_cases hsg : sg = ("*")
        · subst hsg
          cases hget : getProp props ("*") with
          | none => simp [getAtPath, hget] at hat
          | some c =>
            simp only [getAtPath, if_pos rfl] at hat
            rw [hget] at hat
            have hchild : childOf props ("*") front2 = c := by
              simp [childOf, hget]
            rw [hchild] at hinner
            have hlen2 : segs2.length ≤ front2.length + 1 := by
              simp at hlen
              omega
            have hne2 : front2 ++ [lastPart] ≠ segs2 := by
              intro he
              exact hne (by rw [List.cons_append, he])
            obtain ⟨n2, hat2, hobj2⟩ := ih segs2 c cnew n lastPart item hinner hat hobj hlen2 hne2
            refine ⟨n2, ?_, hobj2⟩
            simp only [getAtPath, if_pos rfl]
            rw [getProp_setProp_self]
            exact hat2
        · simp [getAtPath, hsg] at hat
    · subst hroot
      subst hr
      match segsP with
      | [] =>
        rw [getAtPath] at hat
        injection hat with hn
        rw [← hn] at hobj
        simp [isObjA] at hobj
      | sg :: segs2 =>
        by_cases hsg : sg = ("*")
        · subst hsg
          simp [getAtPath] at hat
        · cases hget : getProp props sg with
          | none => simp [getAtPath, hsg, hget] at hat
          | some c =>
            simp only [getAtPath, if_neg hsg] at hat
            rw [hget] at hat
            by_cases hseg : sg = seg
            · subst hseg
              have hchild : childOf props sg front2 = c := by
                simp [childOf, hget]
              rw [hchild] at hinner
              have hlen2 : segs2.length ≤ front2.length + 1 := by
                simp at hlen
                omega
              have hne2 : front2 ++ [lastPart] ≠ segs2 := by
                intro he
                exact hne (by rw [List.cons_append, he])
              obtain ⟨n2, hat2, hobj2⟩ := ih segs2 c cnew n lastPart item hinner hat hobj hlen2 hne2
              refine ⟨n2, ?_, hobj2⟩
              simp only [getAtPath, if_neg hsg]
              rw [getProp_setProp_self]
              exact hat2
            · refine ⟨n, ?_, hobj⟩
              simp only [getAtPath, if_neg hsg]
              rw [getProp_setProp_ne _ _ _ _ hseg, hget]
              exact hat


/-! ### Resolved leaves contain no populated object nodes -/

/-- Every object node inside a type (through array nesting) has an empty
property record — true of everything `getBaseType` builds. -/
def objsEmpty : AnyType → Bool
  | .obj props _ _ => props.isEmpty
  | .arr i _ _ => objsEmpty i
  | .prim _ _ _ => true
  | .jsonvalue _ _ _ => true

theorem getBaseTypeF_objsEmpty (fuel : Nat) :
    ∀ (t : String) (u : AnyType), getBaseTypeF fuel t = .ok u → objsEmpty u = true := by
  induction fuel with
  | zero => intro t u h; simp [getBaseTypeF] at h
  | succ n ih =>
    intro t u h
    rw [getBaseTypeF] at h
    by_cases h1 : strStartsWith t ("Array<")
    · rw [if_pos (by simpa using h1)] at h
      obtain ⟨u2, hu2, hv⟩ := map_eq_ok_any h
      subst hv
      simpa [objsEmpty] using ih _ _ hu2
    · rw [if_neg (by simpa using h1)] at h
      split at h
      · injection h with h2; subst h2; rfl
      · split at h
        · injection h with h2; subst h2; rfl
        · split at h
          · injection h with h2; subst h2; rfl
          · split at h
            · injection h with h2; subst h2; rfl
            · split at h
              · injection h with h2; subst h2; rfl
              · cases h

theorem withAnn_objsEmpty (t : AnyType) (o : Option Bool) (j : String)
    (h : objsEmpty t = true) : objsEmpty (t.withAnn o j) = true := by
  cases t <;> simp [AnyType.withAnn, objsEmpty] at h ⊢ <;> exact h

theorem resolveType_objsEmpty (item : FieldDesc) (leaf : AnyType)
    (h : resolveType item = .ok leaf) : objsEmpty leaf = true := by
  rw [resolveType] at h
  obtain ⟨u, hu, hv⟩ := map_eq_ok_any h
  subst hv
  exact withAnn_objsEmpty _ _ _ (getBaseTypeF_objsEmpty _ _ _ hu)

/-- Reading any path inside a type all of whose object nodes are empty can
only reach an empty object node. -/
theorem getAtPath_objsEmpty (segs : List String) :
    ∀ (u : AnyType) (props : List (String × AnyType)) (o : Option Bool) (j : Option String),
      objsEmpty u = true → getAtPath u segs = some (.obj props o j) → props = [] := by
  induction segs with
  | nil =>
    intro u props o j hemp hat
    rw [getAtPath] at hat
    injection hat with hu
    subst hu
    simpa [objsEmpty, List.isEmpty_iff] using hemp
  | cons sg segs2 ih =>
    intro u props o j hemp hat
    by_cases hsg : sg = ("*")
    · subst hsg
      cases u with
      | arr i ao aj =>
        cases i with
        | obj ip io ij =>
          have hip : ip = [] := by
            simpa [objsEmpty, List.isEmpty_iff] using hemp
          subst hip
          simp [getAtPath, getProp] at hat
        | prim k po pj => simp [getAtPath] at hat
        | jsonvalue p po pj => simp [getAtPath] at hat
        | arr i2 po pj => simp [getAtPath] at hat
      | obj p po pj => simp [getAtPath] at hat
      | prim k po pj => simp [getAtPath] at hat
      | jsonvalue p po pj => simp [getAtPath] at hat
    · cases u with
      | obj p po pj =>
        have hp : p = [] := by
          simpa [objsEmpty, List.isEmpty_iff] using hemp
        subst hp
        simp [getAtPath, hsg, getProp] at hat
      | prim k po pj => simp [getAtPath, hsg] at hat
      | jsonvalue p po pj => simp [getAtPath, hsg] at hat
      | arr i ao aj => simp [getAtPath, hsg] at hat

/-! ### How a successful walk changes the key list of the node at a fixed
position -/

/-- Master key-evolution lemma: a successful walk that does not write at the
position `segsP` itself and writes no deeper than one segment below `segsP`
either leaves the key list of the object at `segsP` unchanged (leaf
replacement keeps its key in place) or appends exactly one new key: the
literal `*` of the fall-through, the leaf name (when the walk front is
exactly `segsP`), or a synthesized container named by the next segment of the
walk's own path. -/
theorem walk_keys (front : List String) :
    ∀ (segsP : List String) (root root2 : AnyType) (lastPart : String) (item : FieldDesc)
      (props : List (String × AnyType)) (o : Option Bool) (j : Option String),
      walkAssign root front lastPart item = .ok root2 →
      getAtPath root segsP = some (.obj props o j) →
      segsP.length ≤ front.length + 1 →
      front ++ [lastPart] ≠ segsP →
      ∃ props2 o2 j2, getAtPath root2 segsP = some (.obj props2 o2 j2) ∧
        (props2.map Prod.fst = props.map Prod.fst
          ∨ ∃ k, k ∉ props.map Prod.fst
              ∧ props2.map Prod.fst = props.map Prod.fst ++ [k]
              ∧ (k = ("*") ∨ (front = segsP ∧ k = lastPart) ∨ segsP ++ [k] <+: front)) := by
  induction front with
  | nil =>
    intro segsP root root2 lastPart item props o j hok hat hlen hne
    obtain ⟨hl, rprops, ro, rj, leaf, hroot, hres, hr⟩ := walk_nil_ok_inv hok
    subst hroot
    subst hr
    match segsP with
    | [] =>
      rw [getAtPath] at hat
      injection hat with hu
      injection hu with hp ho hj
      subst hp
      refine ⟨setProp rprops lastPart leaf, o, j, by rw [getAtPath, ho, hj], ?_⟩
      by_cases hmem : lastPart ∈ rprops.map Prod.fst
      · exact Or.inl (setProp_map_fst_mem rprops lastPart leaf hmem)
      · refine Or.inr ⟨lastPart, hmem, ?_, Or.inr (Or.inl ⟨rfl, rfl⟩)⟩
        rw [setProp_not_mem rprops lastPart leaf hmem]
        simp
    | [sg] =>
      have hsg : ¬ sg = ("*") := by
        intro he
        subst he
        simp [getAtPath] at hat
      have hne2 : sg ≠ lastPart := by
        intro he
        exact hne (by rw [he, List.nil_append])
      cases hget : getProp rprops sg with
      | none => simp [getAtPath, hsg, hget] at hat
      | some c =>
        simp only [getAtPath, if_neg hsg] at hat
        rw [hget] at hat
        refine ⟨props, o, j, ?_, Or.inl rfl⟩
        simp only [getAtPath, if_neg hsg]
        rw [getProp_setProp_ne _ _ _ _ hne2, hget]
        exact hat
    | sg :: s2 :: segs3 =>
      simp at hlen
  | cons seg front2 ih =>
    intro segsP root root2 lastPart item props o j hok hat hlen hne
    rcases walk_cons_ok_inv hok with
      ⟨hs, rprops, ro, rj, ao, aj, cnew, hroot, hinner, hr⟩
      | ⟨hs, rprops, ro, rj, cnew, hroot, hinner, hr⟩
    · subst hs
      subst hroot
      subst hr
      match segsP with
      | [] => simp [getAtPath] at hat
      | sg :: segs2 =>
        by_cases hsg : sg = ("*")
        · subst hsg
          cases hget : getProp rprops ("*") with
          | none => simp [getAtPath, hget] at hat
          | some c =>
            simp only [getAtPath, if_pos rfl] at hat
            rw [hget] at hat
            have hchild : childOf rprops ("*") front2 = c := by
              simp [childOf, hget]
            rw [hchild] at hinner
            have hlen2 : segs2.length ≤ front2.length + 1 := by
              simp at hlen
              omega
            have hne2 : front2 ++ [lastPart] ≠ segs2 := by
              intro he
              exact hne (by rw [List.cons_append, he])
            obtain ⟨props2, o2, j2, hat2, hd⟩ :=
              ih segs2 c cnew lastPart item props o j hinner hat hlen2 hne2
            refine ⟨props2, o2, j2, ?_, ?_⟩
            · simp only [getAtPath, if_pos rfl]
              rw [getProp_setProp_self]
              exact hat2
            · rcases hd with hd | ⟨k, hk1, hk2, hk3⟩
              · exact Or.inl hd
              · refine Or.inr ⟨k, hk1, hk2, ?_⟩
                rcases hk3 with hk3 | ⟨hfs, hkl⟩ | ⟨t, ht⟩
                · exact Or.inl hk3
                · exact Or.inr (Or.inl ⟨by rw [hfs], hkl⟩)
                · exact Or.inr (Or.inr ⟨t, by rw [List.cons_append, List.cons_append, ht]⟩)
        · simp [getAtPath, hsg] at hat
    · subst hroot
      subst hr
      match segsP with
      | [] =>
        rw [getAtPath] at hat
        injection hat with hu
        injection hu with hp ho hj
        subst hp
        refine ⟨setProp rprops seg cnew, o, j, by rw [getAtPath, ho, hj], ?_⟩
        by_cases hmem : seg ∈ rprops.map Prod.fst
        · exact Or.inl (setProp_map_fst_mem rprops seg cnew hmem)
        · refine Or.inr ⟨seg, hmem, ?_, Or.inr (Or.inr ⟨front2, rfl⟩)⟩
          rw [setProp_not_mem rprops seg cnew hmem]
          simp
      | sg :: segs2 =>
        by_cases hsg : sg = ("*")
        · subst hsg
          simp [getAtPath] at hat
        · cases hget : getProp rprops sg with
          | none => simp [getAtPath, hsg, hget] at hat
          | some c =>
            simp only [getAtPath, if_neg hsg] at hat
            rw [hget] at hat
            by_cases hseg : sg = seg
            · subst hseg
              have hchild : childOf rprops sg front2 = c := by
                simp [childOf, hget]
              rw [hchild] at hinner
              have hlen2 : segs2.length ≤ front2.length + 1 := by
                simp at hlen
                omega
              have hne2 : front2 ++ [lastPart] ≠ segs2 := by
                intro he
                exact hne (by rw [List.cons_append, he])
              obtain ⟨props2, o2, j2, hat2, hd⟩ :=
                ih segs2 c cnew lastPart item props o j hinner hat hlen2 hne2
              refine ⟨props2, o2, j2, ?_, ?_⟩
              · simp only [getAtPath, if_neg hsg]
                rw [getProp_setProp_self]
                exact hat2
              · rcases hd with hd | ⟨k, hk1, hk2, hk3⟩
                · exact Or.inl hd
                · refine Or.inr ⟨k, hk1, hk2, ?_⟩
                  rcases hk3 with hk3 | ⟨hfs, hkl⟩ | ⟨t, ht⟩
                  · exact Or.inl hk3
                  · exact Or.inr (Or.inl ⟨by rw [hfs], hkl⟩)
                  · exact Or.inr (Or.inr ⟨t, by rw [List.cons_append, List.cons_append, ht]⟩)
            · refine ⟨props, o, j, ?_, Or.inl rfl⟩
              simp only [getAtPath, if_neg hsg]
              rw [getProp_setProp_ne _ _ _ _ hseg, hget]
              exact hat


/-! ### A walk starting from a synthesized (fresh) container creates only
nodes keyed by its own path segments -/

/-- A walk into a freshly synthesized container (empty object, or
array-of-empty-object) builds a single chain along its own path: an object
found at any position at least as deep as the walk front cannot carry a key
`y` unless the full written path is exactly the position extended by `y`. -/
theorem walk_fresh_no_key (front : List String) :
    ∀ (start cnew : AnyType) (lastPart : String) (item : FieldDesc) (segs2 : List String)
      (y : String),
      (start = .obj [] none none ∨ start = .arr (.obj [] none none) none none) →
      walkAssign start front lastPart item = .ok cnew →
      front.length ≤ segs2.length →
      front ++ [lastPart] ≠ segs2 ++ [y] →
      ∀ props o j, getAtPath cnew segs2 = some (.obj props o j) →
        y ∉ props.map Prod.fst := by
  induction front with
  | nil =>
    intro start cnew lastPart item segs2 y hstart hok hlen hne props o j hat
    obtain ⟨hl, rprops, ro, rj, leaf, hroot, hres, hr⟩ := walk_nil_ok_inv hok
    rcases hstart with hstart | hstart
    · rw [hstart] at hroot
      injection hroot with h1 h2 h3
      subst h1
      subst hr
      match segs2 with
      | [] =>
        rw [getAtPath] at hat
        injection hat with hu
        injection hu with hp ho hj
        intro hy
        rw [← hp] at hy
        simp [setProp] at hy
        exact hne (by rw [List.nil_append, List.nil_append, hy])
      | sg :: segs3 =>
        by_cases hsg : sg = ("*")
        · subst hsg
          simp [getAtPath] at hat
        · by_cases hls : lastPart = sg
          · have hget : getProp (setProp ([] : List (String × AnyType)) lastPart leaf) sg
                = some leaf := by
              rw [hls]
              exact getProp_setProp_self _ _ _
            simp only [getAtPath, if_neg hsg, hget] at hat
            have hp := getAtPath_objsEmpty segs3 leaf props o j
              (resolveType_objsEmpty item leaf hres) hat
            subst hp
            simp
          · have hget : getProp (setProp ([] : List (String × AnyType)) lastPart leaf) sg
                = none := by
              simp [setProp, getProp, hls]
            simp [getAtPath, hsg, hget] at hat
    · rw [hstart] at hroot
      exact AnyType.noConfusion hroot
  | cons seg front2 ih =>
    intro start cnew lastPart item segs2 y hstart hok hlen hne props o j hat
    match segs2 with
    | [] => simp at hlen
    | sg :: segs3 =>
      rcases walk_cons_ok_inv hok with
        ⟨hs, ip, io, ij, ao, aj, cnew2, hroot, hinner, hr⟩
        | ⟨hs, rprops, ro, rj, cnew2, hroot, hinner, hr⟩
      · subst hs
        rcases hstart with hstart | hstart
        · rw [hstart] at hroot
          exact AnyType.noConfusion hroot
        · rw [hstart] at hroot
          injection hroot with h1 h2 h3
          injection h1 with hip hio hij
          subst hip
          subst hr
          by_cases hsg : sg = ("*")
          · subst hsg
            have hget2 : getProp (setProp ([] : List (String × AnyType)) ("*") cnew2) ("*")
                = some cnew2 := getProp_setProp_self _ _ _
            simp only [getAtPath, if_pos rfl, hget2] at hat
            have hfresh2 : childOf ([] : List (String × AnyType)) ("*") front2
                  = .obj [] none none
                ∨ childOf ([] : List (String × AnyType)) ("*") front2
                  = .arr (.obj [] none none) none none := by
              by_cases hh : front2.head? = some ("*")
              · exact Or.inr (by simp [childOf, getProp, hh])
              · exact Or.inl (by simp [childOf, getProp, hh])
            have hlen2 : front2.length ≤ segs3.length := by
              simp at hlen
              omega
            have hne2 : front2 ++ [lastPart] ≠ segs3 ++ [y] := by
              intro he
              exact hne (by rw [List.cons_append, List.cons_append, he])
            exact ih _ _ _ _ _ _ hfresh2 hinner hlen2 hne2 props o j hat
          · simp [getAtPath, hsg] at hat
      · rcases hstart with hstart | hstart
        · rw [hstart] at hroot
          injection hroot with h1 h2 h3
          subst h1
          subst hr
          by_cases hsg : sg = ("*")
          · subst hsg
            simp [getAtPath] at hat
          · by_cases hss : seg = sg
            · have hget2 : getProp (setProp ([] : List (String × AnyType)) seg cnew2) sg
                  = some cnew2 := by
                rw [← hss]
                exact getProp_setProp_self _ _ _
              simp only [getAtPath, if_neg hsg, hget2] at hat
              have hfresh2 : childOf ([] : List (String × AnyType)) seg front2
                    = .obj [] none none
                  ∨ childOf ([] : List (String × AnyType)) seg front2
                    = .arr (.obj [] none none) none none := by
                by_cases hh : front2.head? = some ("*")
                · exact Or.inr (by simp [childOf, getProp, hh])
                · exact Or.inl (by simp [childOf, getProp, hh])
              have hlen2 : front2.length ≤ segs3.length := by
                simp at hlen
                omega
              have hne2 : front2 ++ [lastPart] ≠ segs3 ++ [y] := by
                intro he
                exact hne (by rw [List.cons_append, List.cons_append, hss, he])
              exact ih _ _ _ _ _ _ hfresh2 hinner hlen2 hne2 props o j hat
            · have hget2 : getProp (setProp ([] : List (String × AnyType)) seg cnew2) sg
                  = none := by
                simp [setProp, getProp, hss]
              simp [getAtPath, hsg, hget2] at hat
        · rw [hstart] at hroot
          exact AnyType.noConfusion hroot

/-- Absence of a key is preserved at any position `segsP` at least as deep as
the walk front, unless the walk wrote exactly the path `segsP ++ [y]` (which
is the only way the key `y` can appear in the object at `segsP`). -/
theorem walk_preserves_absent (front : List String) :
    ∀ (segsP : List String) (root root2 : AnyType) (lastPart : String) (item : FieldDesc)
      (y : String),
      walkAssign root front lastPart item = .ok root2 →
      front.length ≤ segsP.length →
      front ++ [lastPart] ≠ segsP ++ [y] →
      (∀ props o j, getAtPath root segsP = some (.obj props o j) → y ∉ props.map Prod.fst) →
      ∀ props2 o2 j2, getAtPath root2 segsP = some (.obj props2 o2 j2) →
        y ∉ props2.map Prod.fst := by
  induction front with
  | nil =>
    intro segsP root root2 lastPart item y hok hlen hne hpre props2 o2 j2 hat2
    obtain ⟨hl, rprops, ro, rj, leaf, hroot, hres, hr⟩ := walk_nil_ok_inv hok
    subst hroot
    subst hr
    match segsP with
    | [] =>
      rw [getAtPath] at hat2
      injection hat2 with hu
      injection hu with hp ho hj
      have hpre2 : y ∉ rprops.map Prod.fst := hpre rprops ro rj (by rw [getAtPath])
      intro hy
      rw [← hp] at hy
      by_cases hmem : lastPart ∈ rprops.map Prod.fst
      · rw [setProp_map_fst_mem rprops lastPart leaf hmem] at hy
        exact hpre2 hy
      · rw [setProp_not_mem rprops lastPart leaf hmem] at hy
        rw [List.map_append] at hy
        rcases List.mem_append.mp hy with hy | hy
        · exact hpre2 hy
        · simp at hy
          exact hne (by rw [List.nil_append, List.nil_append, hy])
    | sg :: segs2 =>
      by_cases hsg : sg = ("*")
      · subst hsg
        simp [getAtPath] at hat2
      · by_cases hls : lastPart = sg
        · have hget2 : getProp (setProp rprops lastPart leaf) sg = some leaf := by
            rw [hls]
            exact getProp_setProp_self _ _ _
          simp only [getAtPath, if_neg hsg, hget2] at hat2
          have hp := getAtPath_objsEmpty segs2 leaf props2 o2 j2
            (resolveType_objsEmpty item leaf hres) hat2
          subst hp
          simp
        · have hget2 : getProp (setProp rprops lastPart leaf) sg = getProp rprops sg :=
            getProp_setProp_ne rprops lastPart sg leaf (Ne.symm hls)
          cases hget : getProp rprops sg with
          | none =>
            rw [hget] at hget2
            simp [getAtPath, hsg, hget2] at hat2
          | some c =>
            rw [hget] at hget2
            simp only [getAtPath, if_neg hsg, hget2] at hat2
            refine hpre props2 o2 j2 ?_
            simp only [getAtPath, if_neg hsg, hget]
            exact hat2
  | cons seg front2 ih =>
    intro segsP root root2 lastPart item y hok hlen hne hpre props2 o2 j2 hat2
    match segsP with
    | [] => simp at hlen
    | sg :: segs2 =>
      rcases walk_cons_ok_inv hok with
        ⟨hs, ip, io, ij, ao, aj, cnew, hroot, hinner, hr⟩
        | ⟨hs, rprops, ro, rj, cnew, hroot, hinner, hr⟩
      · subst hs
        subst hroot
        subst hr
        by_cases hsg : sg = ("*")
        · subst hsg
          have hget2 : getProp (setProp ip ("*") cnew) ("*") = some cnew :=
            getProp_setProp_self _ _ _
          simp only [getAtPath, if_pos rfl, hget2] at hat2
          have hlen2 : front2.length ≤ segs2.length := by
            simp at hlen
            omega
          have hne2 : front2 ++ [lastPart] ≠ segs2 ++ [y] := by
            intro he
            exact hne (by rw [List.cons_append, List.cons_append, he])
          cases hget : getProp ip ("*") with
          | some c =>
            have hchild : childOf ip ("*") front2 = c := by simp [childOf, hget]
            rw [hchild] at hinner
            refine ih segs2 c cnew lastPart item y hinner hlen2 hne2 ?_ props2 o2 j2 hat2
            intro props o j hat
            refine hpre props o j ?_
            simp only [getAtPath, if_pos rfl, hget]
            exact hat
          | none =>
            have hfresh2 : childOf ip ("*") front2 = .obj [] none none
                ∨ childOf ip ("*") front2 = .arr (.obj [] none none) none none := by
              by_cases hh : front2.head? = some ("*")
              · exact Or.inr (by simp [childOf, hget, hh])
              · exact Or.inl (by simp [childOf, hget, hh])
            exact walk_fresh_no_key front2 _ cnew lastPart item segs2 y hfresh2 hinner
              hlen2 hne2 props2 o2 j2 hat2
        · simp [getAtPath, hsg] at hat2
      · subst hroot
        subst hr
        by_cases hsg : sg = ("*")
        · subst hsg
          simp [getAtPath] at hat2
        · by_cases hss : seg = sg
          · have hget2 : getProp (setProp rprops seg cnew) sg = some cnew := by
              rw [← hss]
              exact getProp_setProp_self _ _ _
            simp only [getAtPath, if_neg hsg, hget2] at hat2
            have hlen2 : front2.length ≤ segs2.length := by
              simp at hlen
              omega
            have hne2 : front2 ++ [lastPart] ≠ segs2 ++ [y] := by
              intro he
              exact hne (by rw [List.cons_append, List.cons_append, hss, he])
            cases hget : getProp rprops seg with
            | some c =>
              have hchild : childOf rprops seg front2 = c := by simp [childOf, hget]
              rw [hchild] at hinner
              refine ih segs2 c cnew lastPart item y hinner hlen2 hne2 ?_ props2 o2 j2 hat2
              intro props o j hat
              refine hpre props o j ?_
              have hgetsg : getProp rprops sg = some c := by
                rw [← hss]
                exact hget
              simp only [getAtPath, if_neg hsg, hgetsg]
              exact hat
            | none =>
              have hfresh2 : childOf rprops seg front2 = .obj [] none none
                  ∨ childOf rprops seg front2 = .arr (.obj [] none none) none none := by
                by_cases hh : front2.head? = some ("*")
                · exact Or.inr (by simp [childOf, hget, hh])
                · exact Or.inl (by simp [childOf, hget, hh])
              exact walk_fresh_no_key front2 _ cnew lastPart item segs2 y hfresh2 hinner
                hlen2 hne2 props2 o2 j2 hat2
          · have hget2 : getProp (setProp rprops seg cnew) sg = getProp rprops sg :=
              getProp_setProp_ne rprops seg sg cnew (Ne.symm hss)
            cases hget : getProp rprops sg with
            | none =>
              rw [hget] at hget2
              simp [getAtPath, hsg, hget2] at hat2
            | some c =>
              rw [hget] at hget2
              simp only [getAtPath, if_neg hsg, hget2] at hat2
              refine hpre props2 o2 j2 ?_
              simp only [getAtPath, if_neg hsg, hget]
              exact hat2


/-! ### Sortedness and stability of the depth sort -/

theorem insertByDepth_pairwise (x : FieldDesc) (l : List FieldDesc)
    (h : l.Pairwise (fun a b => dotCount a.valueName ≤ dotCount b.valueName)) :
    (insertByDepth x l).Pairwise
      (fun a b => dotCount a.valueName ≤ dotCount b.valueName) := by
  induction l with
  | nil => simp [insertByDepth]
  | cons y ys ih =>
    rw [List.pairwise_cons] at h
    obtain ⟨hy, hys⟩ := h
    by_cases hle : dotCount x.valueName ≤ dotCount y.valueName
    · rw [insertByDepth, if_pos hle]
      refine List.Pairwise.cons ?_ (List.Pairwise.cons hy hys)
      intro b hb
      rcases List.mem_cons.mp hb with hb | hb
      · rw [hb]
        exact hle
      · exact Nat.le_trans hle (hy b hb)
    · rw [insertByDepth, if_neg hle]
      refine List.Pairwise.cons ?_ (ih hys)
      intro b hb
      rcases (mem_insertByDepth b x ys).mp hb with hb | hb
      · rw [hb]
        omega
      · exact hy b hb

/-- The depth sort produces a list whose depths are nondecreasing. -/
theorem sortByDepth_pairwise (l : List FieldDesc) :
    (sortByDepth l).Pairwise (fun a b => dotCount a.valueName ≤ dotCount b.valueName) := by
  induction l with
  | nil => simp [sortByDepth]
  | cons x xs ih => exact insertByDepth_pairwise x _ ih

theorem insertByDepth_sublist_self (x : FieldDesc) (l : List FieldDesc) :
    List.Sublist l (insertByDepth x l) := by
  induction l with
  | nil => simp [insertByDepth]
  | cons y ys ih =>
    by_cases hle : dotCount x.valueName ≤ dotCount y.valueName
    · rw [insertByDepth, if_pos hle]
      exact List.Sublist.cons x (List.Sublist.refl (y :: ys))
    · rw [insertByDepth, if_neg hle]
      exact List.Sublist.cons₂ y ih

theorem pair_sublist_insertByDepth (x d2 : FieldDesc) (l : List FieldDesc)
    (hmem : d2 ∈ l) (hle : dotCount x.valueName ≤ dotCount d2.valueName) :
    List.Sublist [x, d2] (insertByDepth x l) := by
  induction l with
  | nil => simp at hmem
  | cons y ys ih =>
    by_cases hley : dotCount x.valueName ≤ dotCount y.valueName
    · rw [insertByDepth, if_pos hley]
      exact List.Sublist.cons₂ x (List.singleton_sublist.mpr hmem)
    · rw [insertByDepth, if_neg hley]
      rcases List.mem_cons.mp hmem with hd | hd
      · rw [hd] at hle
        exact absurd hle hley
      · exact List.Sublist.cons y (ih hd)

/-- Stability of the depth sort on a pair: two descriptors in input order whose
depths are already nondecreasing stay in that relative order after sorting —
the stable-sort guarantee of `Array.prototype.sort`, which the insertion-sort
model realizes. -/
theorem sortByDepth_stable_pair (d1 d2 : FieldDesc) (items : List FieldDesc)
    (hsub : List.Sublist [d1, d2] items)
    (hle : dotCount d1.valueName ≤ dotCount d2.valueName) :
    List.Sublist [d1, d2] (sortByDepth items) := by
  induction items with
  | nil => simp at hsub
  | cons x xs ih =>
    rw [sortByDepth]
    cases hsub with
    | cons a h2 => exact (ih h2).trans (insertByDepth_sublist_self x (sortByDepth xs))
    | cons₂ a h2 =>
      exact pair_sublist_insertByDepth d1 d2 (sortByDepth xs)
        ((mem_sortByDepth d2 xs).mpr (List.singleton_sublist.mp h2)) hle

theorem sublist_pair_split {α : Type} (a b : α) (l : List α) (h : List.Sublist [a, b] l) :
    ∃ s t u, l = s ++ a :: (t ++ b :: u) := by
  induction l with
  | nil => simp at h
  | cons x xs ih =>
    cases h with
    | cons c h2 =>
      obtain ⟨s, t, u, he⟩ := ih h2
      exact ⟨x :: s, t, u, by simp [he]⟩
    | cons₂ c h2 =>
      obtain ⟨t, u, he⟩ := List.append_of_mem (List.singleton_sublist.mp h2)
      exact ⟨[], t, u, by simp [he]⟩

/-! ### Splitting and stepping the builder fold -/

theorem buildTree_append (l1 : List FieldDesc) :
    ∀ (root : AnyType) (l2 : List FieldDesc),
      buildTree root (l1 ++ l2)
        = match buildTree root l1 with
          | .error e => .error e
          | .ok r2 => buildTree r2 l2 := by
  induction l1 with
  | nil => intro root l2; rfl
  | cons x xs ih =>
    intro root l2
    simp only [List.cons_append, buildTree]
    cases addItem root x with
    | error e => rfl
    | ok r2 => exact ih r2 l2

/-- A property of the tree preserved by every single `addItem` step of a list
is preserved by the whole fold. -/
theorem buildTree_preserve (P : AnyType → Prop) (l : List FieldDesc) :
    ∀ (root root2 : AnyType),
      (∀ d ∈ l, ∀ r r2, addItem r d = .ok r2 → P r → P r2) →
      buildTree root l = .ok root2 → P root → P root2 := by
  induction l with
  | nil =>
    intro root root2 hstep hb hp
    rw [buildTree] at hb
    injection hb with h
    rw [← h]
    exact hp
  | cons x xs ih =>
    intro root root2 hstep hb hp
    cases hadd : addItem root x with
    | error e => simp [buildTree, hadd] at hb
    | ok r2 =>
      rw [buildTree, hadd] at hb
      exact ih r2 root2 (fun d hd => hstep d (List.mem_cons_of_mem x hd)) hb
        (hstep x (List.mem_cons_self x xs) root r2 hadd hp)


/-! ### Splitting a pairwise-ordered list around two elements -/

theorem pairwise_split_of_lt {α : Type} (R : α → α → Prop) (l : List α) (a b : α)
    (hp : l.Pairwise R) (ha : a ∈ l) (hb : b ∈ l) (hnab : ¬ R b a) (hne : ¬ a = b) :
    ∃ s t u, l = s ++ a :: (t ++ b :: u) := by
  induction l with
  | nil => simp at ha
  | cons x xs ih =>
    rw [List.pairwise_cons] at hp
    obtain ⟨hx, hxs⟩ := hp
    rcases List.mem_cons.mp ha with ha1 | ha1
    · rcases List.mem_cons.mp hb with hb1 | hb1
      · exact absurd (ha1.trans hb1.symm) hne
      · obtain ⟨t, u, he⟩ := List.append_of_mem hb1
        exact ⟨[], t, u, by simp [← ha1, he]⟩
    · rcases List.mem_cons.mp hb with hb1 | hb1
      · refine absurd ?_ hnab
        rw [hb1]
        exact hx a ha1
      · obtain ⟨sl, t, u, he⟩ := ih hxs ha1 hb1
        exact ⟨x :: sl, t, u, by simp [he]⟩

theorem dotCount_ext (p s : String) :
    dotCount (p ++ (".") ++ s) = dotCount p + 1 + dotCount s := by
  have h := data_append3 p (".") s
  rw [dotCount, h, List.count_append, List.count_append]
  have hone : ((("." : String)).data).count '.' = 1 := rfl
  rw [hone]
  rfl


/-! ### Reading one segment further, and the exact-position write -/

theorem getAtPath_snoc_obj (p : List String) :
    ∀ (root v : AnyType) (x : String),
      ¬ x = ("*") →
      getAtPath root (p ++ [x]) = some v →
      ∃ props o j, getAtPath root p = some (.obj props o j) ∧ getProp props x = some v := by
  induction p with
  | nil =>
    intro root v x hx hat
    rw [List.nil_append] at hat
    cases root with
    | obj props o j =>
      cases hget : getProp props x with
      | none => simp [getAtPath, hx, hget] at hat
      | some c =>
        simp only [getAtPath, if_neg hx, hget] at hat
        injection hat with hc
        refine ⟨props, o, j, by rw [getAtPath], ?_⟩
        rw [hget, hc]
    | prim k o j => simp [getAtPath, hx] at hat
    | jsonvalue pr o j => simp [getAtPath, hx] at hat
    | arr i o j => simp [getAtPath, hx] at hat
  | cons sg p2 ih =>
    intro root v x hx hat
    rw [List.cons_append] at hat
    by_cases hsg : sg = ("*")
    · subst hsg
      cases root with
      | arr i ao aj =>
        cases i with
        | obj ip io ij =>
          cases hget : getProp ip ("*") with
          | none => simp [getAtPath, hget] at hat
          | some c =>
            simp only [getAtPath, if_pos rfl, hget] at hat
            obtain ⟨props, o, j, h1, h2⟩ := ih c v x hx hat
            refine ⟨props, o, j, ?_, h2⟩
            simp only [getAtPath, if_pos rfl, hget]
            exact h1
        | prim k o j => simp [getAtPath] at hat
        | jsonvalue pr o j => simp [getAtPath] at hat
        | arr i2 o j => simp [getAtPath] at hat
      | obj pr o j => simp [getAtPath] at hat
      | prim k o j => simp [getAtPath] at hat
      | jsonvalue pr o j => simp [getAtPath] at hat
    · cases root with
      | obj props2 o2 j2 =>
        cases hget : getProp props2 sg with
        | none => simp [getAtPath, hsg, hget] at hat
        | some c =>
          simp only [getAtPath, if_neg hsg, hget] at hat
          obtain ⟨props, o, j, h1, h2⟩ := ih c v x hx hat
          refine ⟨props, o, j, ?_, h2⟩
          simp only [getAtPath, if_neg hsg, hget]
          exact h1
      | prim k o j => simp [getAtPath, hsg] at hat
      | jsonvalue pr o j => simp [getAtPath, hsg] at hat
      | arr i o j => simp [getAtPath, hsg] at hat

/-- A successful walk whose front is exactly the observed position writes the
resolved leaf under the leaf name with a plain property assignment: the
updated object at that position is `setProp props lastPart leaf`. -/
theorem walk_exact_keys (front : List String) :
    ∀ (root root2 : AnyType) (lastPart : String) (item : FieldDesc)
      (props : List (String × AnyType)) (o : Option Bool) (j : Option String),
      walkAssign root front lastPart item = .ok root2 →
      getAtPath root front = some (.obj props o j) →
      ∃ leaf, resolveType item = .ok leaf
        ∧ getAtPath root2 front = some (.obj (setProp props lastPart leaf) o j) := by
  induction front with
  | nil =>
    intro root root2 lastPart item props o j hok hat
    obtain ⟨hl, rprops, ro, rj, leaf, hroot, hres, hr⟩ := walk_nil_ok_inv hok
    subst hroot
    subst hr
    rw [getAtPath] at hat
    injection hat with hu
    injection hu with hp ho hj
    refine ⟨leaf, hres, ?_⟩
    rw [getAtPath, hp, ho, hj]
  | cons seg front2 ih =>
    intro root root2 lastPart item props o j hok hat
    rcases walk_cons_ok_inv hok with
      ⟨hs, ip, io, ij, ao, aj, cnew, hroot, hinner, hr⟩
      | ⟨hs, rprops, ro, rj, cnew, hroot, hinner, hr⟩
    · subst hs
      subst hroot
      subst hr
      cases hget : getProp ip ("*") with
      | none => simp [getAtPath, hget] at hat
      | some c =>
        simp only [getAtPath, if_pos rfl, hget] at hat
        have hchild : childOf ip ("*") front2 = c := by simp [childOf, hget]
        rw [hchild] at hinner
        obtain ⟨leaf, hres, hat2⟩ := ih c cnew lastPart item props o j hinner hat
        refine ⟨leaf, hres, ?_⟩
        have hg2 : getProp (setProp ip ("*") cnew) ("*") = some cnew :=
          getProp_setProp_self _ _ _
        simp only [getAtPath, if_pos rfl, hg2]
        exact hat2
    · subst hroot
      subst hr
      cases hget : getProp rprops seg with
      | none => simp [getAtPath, hs, hget] at hat
      | some c =>
        simp only [getAtPath, if_neg hs, hget] at hat
        have hchild : childOf rprops seg front2 = c := by simp [childOf, hget]
        rw [hchild] at hinner
        obtain ⟨leaf, hres, hat2⟩ := ih c cnew lastPart item props o j hinner hat
        refine ⟨leaf, hres, ?_⟩
        have hg2 : getProp (setProp rprops seg cnew) seg = some cnew :=
          getProp_setProp_self _ _ _
        simp only [getAtPath, if_neg hs, hg2]
        exact hat2

/-! ### Key order through the emitter -/

theorem renderProps_map_fst (props : List (String × AnyType)) :
    (renderProps props).map Prod.fst = props.map Prod.fst := by
  induction props with
  | nil => rfl
  | cons kv rest ih =>
    cases kv with
    | mk k t => simp [renderProps, ih]

theorem map_fst_filter_key {α : Type} (p : String → Bool) (props : List (String × α)) :
    (props.filter (fun kv => p kv.1)).map Prod.fst = (props.map Prod.fst).filter p := by
  induction props with
  | nil => rfl
  | cons kv rest ih =>
    by_cases hp : p kv.1
    · simp [List.filter_cons, hp, ih]
    · simp [List.filter_cons, hp, ih]

/-- Two non-array-index keys keep their relative storage order in the
`Object.entries` enumeration: `jsEntries` moves only array-index names ahead
and leaves the remaining string keys in insertion order. -/
theorem keys_sublist_jsEntries {α : Type} (props : List (String × α)) (x y : String)
    (h : List.Sublist [x, y] (props.map Prod.fst))
    (hx : isArrayIndexName x = false) (hy : isArrayIndexName y = false) :
    List.Sublist [x, y] ((jsEntries props).map Prod.fst) := by
  have h3 := List.Sublist.filter (fun k => !isArrayIndexName k) h
  have h2 : List.filter (fun k => !isArrayIndexName k) [x, y] = [x, y] := by
    simp [List.filter_cons, hx, hy]
  rw [h2] at h3
  have h4 : (props.filter (fun kv => !isArrayIndexName kv.1)).map Prod.fst
      = (props.map Prod.fst).filter (fun k => !isArrayIndexName k) :=
    map_fst_filter_key (fun k => !isArrayIndexName k) props
  rw [jsEntries, List.map_append]
  refine List.Sublist.trans ?_ (List.sublist_append_right
    ((sortByIdx (props.filter (fun kv => isArrayIndexName kv.1))).map Prod.fst) _)
  rw [h4]
  exact h3

/-! ### Claim C1 -/

/-- C1: the claim states that for
`[items.*.name : String (required), items.*.count : Number (optional)]` the
builder places the two leaves directly in the element object of the array and the
rendering reads `items: Array<\x7b name: string; count?: number; \x7d>`.  The
code does not do this: because the `*` branch of the segment loop falls
through into the ordinary property handling, a property literally named `*` is
synthesized inside the element object and the two leaves land under it, as
this evaluation of the builder and emitter at that exact input shows. -/
theorem c1_star_segment_gets_literal_star_property :
    unflattenAndResolveTypes
        [⟨("items.*.name"), ("String"), (""), none, some false, none⟩,
         ⟨("items.*.count"), ("Number"), (""), none, some true, none⟩]
      = .ok (.obj [(("items"),
          .arr (.obj [(("*"),
            .obj [(("name"), .prim ("string") (some false) (some (""))),
                  (("count"), .prim ("number") (some true) (some ("")))] none none)]
            none none) none none)] none none)
    ∧ renderEntityFields
        [⟨("items.*.name"), ("String"), (""), none, some false, none⟩,
         ⟨("items.*.count"), ("Number"), (""), none, some true, none⟩]
      = .ok ("\x7b\nitems: Array<\x7b\n*: \x7b\nname: string;\ncount?: number;\n\x7d;\n\x7d>;\n\x7d") :=
  ⟨rfl, by decide⟩

/-! ### Claim C2, counterexample -/

/-- C2 counterexample: a leaf descriptor of declared type `Object` with no
nested descriptors renders as `JsonObject`, while the identical descriptor
with declared type `Any` renders as `JsonValue` — the two entity renderings
are not byte-identical, contrary to the claim. -/
theorem c2_object_and_any_render_differently :
    renderEntityFields [⟨("data"), ("Object"), (""), none, none, none⟩]
        = .ok ("\x7b\ndata: JsonObject;\n\x7d")
    ∧ renderEntityFields [⟨("data"), ("Any"), (""), none, none, none⟩]
        = .ok ("\x7b\ndata: JsonValue;\n\x7d")
    ∧ (("\x7b\ndata: JsonObject;\n\x7d") : String) ≠ ("\x7b\ndata: JsonValue;\n\x7d") :=
  ⟨by decide, by decide, by decide⟩

/-! ### Claim C3 -/

/-- C3 counterexample: the code discriminates request fields from
response/event fields solely by presence of the `valueOptional` member
(`isObsRequestField`), not by which entity kind is being processed; a raw
descriptor carrying `valueOptional` that arrives through the response
generator is annotated like a request parameter, so the resolved node of a
response-processed descriptor does carry the optional marker and the response
rendering shows `x?:`. -/
theorem c3_response_descriptor_with_valueOptional_is_annotated :
    resolveType ⟨("x"), ("String"), (""), none, some true, none⟩
        = .ok (.prim ("string") (some true) (some ("")))
    ∧ genResponseEntry ⟨("R"), [], [⟨("x"), ("String"), (""), none, some true, none⟩]⟩
        = .ok ("R: \x7b\nx?: string;\n\x7d;") :=
  ⟨rfl, by decide⟩

/-- C3 (amended): a descriptor whose raw object has no `valueOptional` member
— which is what every response and event descriptor produced by the schema
looks like — resolves to a node with no optional marker and with a jsdoc that
is exactly the description, with no restriction or default-value line
appended. -/
theorem c3_absent_valueOptional_gets_no_annotations (f : FieldDesc) (t : AnyType)
    (hopt : f.valueOptional = none) (h : resolveType f = .ok t) :
    t.getOptional = none ∧ t.getJsdoc = some f.valueDescription := by
  rw [resolveType] at h
  obtain ⟨u, hu, hv⟩ := map_eq_ok_any h
  subst hv
  have hreq : isObsRequestField f = false := by simp [isObsRequestField, hopt]
  constructor
  · cases u <;> simp [AnyType.withAnn, AnyType.getOptional, annotateOpt, hopt]
  · cases u <;> simp [AnyType.withAnn, AnyType.getJsdoc, annotateJsdoc, hreq]

/-- C3 witness: the amended theorem applied to a concrete response-style
descriptor. -/
theorem c3_witness :
    ((⟨("y"), ("Number"), ("desc"), none, none, none⟩ : FieldDesc).valueOptional = none
      ∧ resolveType ⟨("y"), ("Number"), ("desc"), none, none, none⟩
          = .ok (.prim ("number") none (some ("desc"))))
    ∧ (AnyType.prim ("number") none (some ("desc"))).getOptional = none
    ∧ (AnyType.prim ("number") none (some ("desc"))).getJsdoc = some ("desc") :=
  ⟨⟨rfl, rfl⟩,
    c3_absent_valueOptional_gets_no_annotations
      ⟨("y"), ("Number"), ("desc"), none, none, none⟩ _ rfl rfl⟩

/-! ### Claim C4 -/

/-- C4 counterexample: resolving the declared type `Array<Array<Number>>`
does not fail — the runtime performs no element-shape check (the
TypeScript cast on the array element type is erased), so the nested array node is built. -/
theorem c4_array_of_array_resolves_without_error :
    getBaseType ("Array<Array<Number>>")
      = .ok (.arr (.arr (.prim ("number") none none) none none) none none) := rfl

/-- C4 (amended): a declared type `Array<T>` with `T` itself an array type is
resolved recursively into nested `ArrayNode`s rather than failing, and the
emitter renders it (`Array<Array<number>>`), end to end through the builder. -/
theorem c4_array_of_array_built_and_rendered :
    renderEntityFields [⟨("values"), ("Array<Array<Number>>"), (""), none, none, none⟩]
      = .ok ("\x7b\nvalues: Array<Array<number>>;\n\x7d") := by
  decide

/-! ### Claim C5 -/

/-- C5, counterexample to the unrestricted claim: with a duplicate path the
conflict goes undetected.  `foo` is first assigned a scalar String leaf, then
the duplicate descriptor `foo:Object` overwrites it (JS property assignment
replaces in place), and `foo.bar` then descends into the now-object node, so
the build succeeds and returns a tree — no structural-conflict error, even
though one path declared the position `foo` as a non-object leaf and another
required it to be an object. -/
theorem c5_duplicate_path_builds_without_error :
    unflattenAndResolveTypes
        [⟨("foo"), ("String"), (""), none, none, none⟩,
         ⟨("foo"), ("Object"), (""), none, none, none⟩,
         ⟨("foo.bar"), ("Number"), (""), none, none, none⟩]
      = .ok (.obj [(("foo"),
          .obj [(("bar"), .prim ("number") none (some ("")))] none (some ("")))]
          none none) := rfl

/-- C5 (amended with the distinct-paths proviso): for every entity field list
with pairwise-distinct paths, if one descriptor `d1` declares its tree
position as a non-object leaf (declared type other than `Object`) and another
descriptor `d2` extends that same position (its path is `d1`'s path followed
by `.` and at least one more segment, the first of which is not `*`), the
build fails with an error and returns no tree: the depth sort processes `d1`
first, its walk stores a non-object leaf at its path, every other descriptor
leaves that non-object node in place, and `d2`'s walk stops with a
structural-conflict error when it reaches it. -/
theorem c5_nonobject_leaf_conflict_aborts_build
    (items : List FieldDesc) (d1 d2 : FieldDesc) (s : String)
    (hnodup : (items.map FieldDesc.valueName).Nodup)
    (h1 : d1 ∈ items) (h2 : d2 ∈ items)
    (hext : d2.valueName = d1.valueName ++ (".") ++ s)
    (htype : ¬ d1.valueType = ("Object"))
    (hhead : ¬ (splitCh '.' s).headD ("") = ("*")) :
    ∃ e, unflattenAndResolveTypes items = .error e := by
  have hlt : dotCount d1.valueName < dotCount d2.valueName := by
    rw [hext, dotCount_ext]
    omega
  have hne12 : ¬ d1 = d2 := by
    intro he
    rw [he] at hlt
    omega
  obtain ⟨A, B, C, hsplit⟩ := pairwise_split_of_lt
    (fun a b => dotCount a.valueName ≤ dotCount b.valueName) (sortByDepth items) d1 d2
    (sortByDepth_pairwise items)
    ((mem_sortByDepth d1 items).mpr h1) ((mem_sortByDepth d2 items).mpr h2)
    (by omega) hne12
  have hpw := sortByDepth_pairwise items
  rw [hsplit] at hpw
  have hpw2 := (List.pairwise_append.mp hpw).2.1
  rw [List.pairwise_cons] at hpw2
  have hleB : ∀ b ∈ B, dotCount d1.valueName ≤ dotCount b.valueName := by
    intro b hb
    exact hpw2.1 b (List.mem_append_left (d2 :: C) hb)
  have hnames : ((A ++ d1 :: (B ++ d2 :: C)).map FieldDesc.valueName).Nodup := by
    have hperm := sortByDepth_perm items
    rw [hsplit] at hperm
    exact ((hperm.map FieldDesc.valueName).nodup_iff).mpr hnodup
  have hsubd1B : List.Sublist (d1 :: B) (A ++ d1 :: (B ++ d2 :: C)) :=
    List.Sublist.trans (List.Sublist.cons₂ d1 (List.sublist_append_left B (d2 :: C)))
      (List.sublist_append_right A (d1 :: (B ++ d2 :: C)))
  have hnodupd1B := hnames.sublist (hsubd1B.map FieldDesc.valueName)
  rw [List.map_cons, List.nodup_cons] at hnodupd1B
  have hd1B : ∀ b ∈ B, ¬ b.valueName = d1.valueName := by
    intro b hb heq
    exact hnodupd1B.1 (heq ▸ List.mem_map_of_mem FieldDesc.valueName hb)
  have hstep : ∀ b ∈ B, ∀ r rx, addItem r b = .ok rx →
      (∃ n, getAtPath r (splitCh '.' d1.valueName) = some n ∧ isObjA n = false) →
      (∃ n, getAtPath rx (splitCh '.' d1.valueName) = some n ∧ isObjA n = false) := by
    intro b hb r rx hab hp
    obtain ⟨n, hn, hno⟩ := hp
    have hlenb : (splitCh '.' d1.valueName).length
        ≤ (splitCh '.' b.valueName).dropLast.length + 1 := by
      have e1 := splitCh_length_eq d1.valueName
      have e2 := splitCh_length_eq b.valueName
      have e3 : (splitCh '.' b.valueName).dropLast.length
          = (splitCh '.' b.valueName).length - 1 := List.length_dropLast _
      have e4 : 1 ≤ (splitCh '.' b.valueName).length := by
        cases hq : splitCh '.' b.valueName with
        | nil => exact absurd hq (splitCh_ne_nil _ _)
        | cons q qs => simp
      have hled := hleB b hb
      omega
    have hneb : (splitCh '.' b.valueName).dropLast
        ++ [(splitCh '.' b.valueName).getLastD ("")] ≠ splitCh '.' d1.valueName := by
      rw [dropLast_append_getLastD _ _ (splitCh_ne_nil '.' b.valueName)]
      intro he
      exact hd1B b hb (splitCh_injective '.' _ _ he)
    exact walk_preserves_nonobj ((splitCh '.' b.valueName).dropLast)
      (splitCh '.' d1.valueName) r rx n ((splitCh '.' b.valueName).getLastD ("")) b
      hab hn hno hlenb hneb
  rw [unflattenAndResolveTypes, hsplit, buildTree_append]
  cases hA : buildTree (.obj [] none none) A with
  | error e => exact ⟨e, rfl⟩
  | ok r1 =>
    show ∃ e, buildTree r1 (d1 :: (B ++ d2 :: C)) = Except.error e
    rw [buildTree]
    cases hd1 : addItem r1 d1 with
    | error e => exact ⟨e, rfl⟩
    | ok r2 =>
      show ∃ e, buildTree r2 (B ++ d2 :: C) = Except.error e
      obtain ⟨leaf, hres, hat⟩ := walk_ok_leaf ((splitCh '.' d1.valueName).dropLast)
        r1 r2 ((splitCh '.' d1.valueName).getLastD ("")) d1 hd1
      rw [dropLast_append_getLastD _ _ (splitCh_ne_nil '.' d1.valueName)] at hat
      have hleafobj : isObjA leaf = false := by
        cases leaf with
        | obj p o j => exact absurd (resolveType_ok_obj d1 p o j hres) htype
        | prim k o j => rfl
        | jsonvalue p o j => rfl
        | arr i o j => rfl
      rw [buildTree_append]
      cases hB : buildTree r2 B with
      | error e => exact ⟨e, rfl⟩
      | ok r3 =>
        show ∃ e, buildTree r3 (d2 :: C) = Except.error e
        obtain ⟨n, hn3, hno3⟩ := buildTree_preserve
          (fun r => ∃ n, getAtPath r (splitCh '.' d1.valueName) = some n
            ∧ isObjA n = false)
          B r2 r3 hstep hB ⟨leaf, hat, hleafobj⟩
        have hsegs2 : splitCh '.' d2.valueName
            = splitCh '.' d1.valueName ++ splitCh '.' s := by
          rw [hext]
          exact splitCh_append_sep _ _
        cases hsS : splitCh '.' s with
        | nil => exact absurd hsS (splitCh_ne_nil '.' s)
        | cons q qs =>
          have hq : ¬ q = ("*") := by
            rw [hsS] at hhead
            simpa using hhead
          cases qs with
          | nil =>
            have hfront : (splitCh '.' d2.valueName).dropLast
                = splitCh '.' d1.valueName := by
              rw [hsegs2, hsS, dropLast_append_of_ne_nil _ _ (by simp)]
              simp
            have hlast : (splitCh '.' d2.valueName).getLastD ("") = q := by
              rw [hsegs2, hsS]
              exact List.getLastD_concat _ _ _
            obtain ⟨e, he⟩ := walk_fails_nonobj_prefix (splitCh '.' d1.valueName)
              r3 n [] q d2 hn3 hno3 (Or.inl ⟨rfl, hq⟩)
            refine ⟨e, ?_⟩
            have had : addItem r3 d2 = Except.error e := by
              show walkAssign r3 ((splitCh '.' d2.valueName).dropLast)
                  ((splitCh '.' d2.valueName).getLastD ("")) d2 = Except.error e
              rw [hfront, hlast]
              simpa using he
            rw [buildTree, had]
          | cons q2 qs2 =>
            have hfront : (splitCh '.' d2.valueName).dropLast
                = splitCh '.' d1.valueName ++ (q :: (q2 :: qs2).dropLast) := by
              rw [hsegs2, hsS, dropLast_append_of_ne_nil _ _ (by simp)]
              rfl
            obtain ⟨e, he⟩ := walk_fails_nonobj_prefix (splitCh '.' d1.valueName)
              r3 n (q :: (q2 :: qs2).dropLast) ((splitCh '.' d2.valueName).getLastD (""))
              d2 hn3 hno3 (Or.inr ⟨q, (q2 :: qs2).dropLast, rfl, hq⟩)
            refine ⟨e, ?_⟩
            have had : addItem r3 d2 = Except.error e := by
              show walkAssign r3 ((splitCh '.' d2.valueName).dropLast)
                  ((splitCh '.' d2.valueName).getLastD ("")) d2 = Except.error e
              rw [hfront]
              exact he
            rw [buildTree, had]

/-- C5 witness: the amended theorem applied at the concrete list
`[x.y.z:Number, w:String, x.y:String]` — distinct paths, `x.y` a non-Object
leaf, `x.y.z` extending it — which therefore fails to build. -/
theorem c5_witness :
    ((([⟨("x.y.z"), ("Number"), (""), none, none, none⟩,
        ⟨("w"), ("String"), (""), none, none, none⟩,
        ⟨("x.y"), ("String"), (""), none, none, none⟩] : List FieldDesc).map
          FieldDesc.valueName).Nodup
      ∧ (⟨("x.y"), ("String"), (""), none, none, none⟩ : FieldDesc) ∈
          ([⟨("x.y.z"), ("Number"), (""), none, none, none⟩,
            ⟨("w"), ("String"), (""), none, none, none⟩,
            ⟨("x.y"), ("String"), (""), none, none, none⟩] : List FieldDesc)
      ∧ (⟨("x.y.z"), ("Number"), (""), none, none, none⟩ : FieldDesc) ∈
          ([⟨("x.y.z"), ("Number"), (""), none, none, none⟩,
            ⟨("w"), ("String"), (""), none, none, none⟩,
            ⟨("x.y"), ("String"), (""), none, none, none⟩] : List FieldDesc)
      ∧ ("x.y.z") = ("x.y") ++ (".") ++ ("z")
      ∧ ¬ ("String") = ("Object")
      ∧ ¬ (splitCh '.' ("z")).headD ("") = ("*"))
    ∧ (∃ e, unflattenAndResolveTypes
          [⟨("x.y.z"), ("Number"), (""), none, none, none⟩,
           ⟨("w"), ("String"), (""), none, none, none⟩,
           ⟨("x.y"), ("String"), (""), none, none, none⟩] = .error e) :=
  ⟨⟨by decide, by decide, by decide, by decide, by decide, by decide⟩,
    c5_nonobject_leaf_conflict_aborts_build
      [⟨("x.y.z"), ("Number"), (""), none, none, none⟩,
       ⟨("w"), ("String"), (""), none, none, none⟩,
       ⟨("x.y"), ("String"), (""), none, none, none⟩]
      ⟨("x.y"), ("String"), (""), none, none, none⟩
      ⟨("x.y.z"), ("Number"), (""), none, none, none⟩
      ("z") (by decide) (by decide) (by decide) (by decide) (by decide) (by decide)⟩


/-! ### Claim C6 -/

/-- C6: any entity field list containing a descriptor whose dotted path ends
in the wildcard segment `*` makes the whole build throw: processing that
descriptor fails no matter what tree state has been reached, so
`unflattenAndResolveTypes` returns an error and no tree is produced. -/
theorem c6_trailing_star_aborts_build (items : List FieldDesc) (d : FieldDesc)
    (hmem : d ∈ items) (hstar : lastSegment d.valueName = ("*")) :
    ∃ e, unflattenAndResolveTypes items = .error e := by
  rw [unflattenAndResolveTypes]
  exact buildTree_error_of_mem _ d ((mem_sortByDepth d _).mpr hmem)
    (addItem_lastStar d hstar) _

/-- C6 witness: the concrete list
`[a : String, b.c : Number, b.* : String]` from the claim aborts with an
error. -/
theorem c6_witness :
    ((⟨("b.*"), ("String"), (""), none, none, none⟩ : FieldDesc) ∈
        ([⟨("a"), ("String"), (""), none, none, none⟩,
          ⟨("b.c"), ("Number"), (""), none, none, none⟩,
          ⟨("b.*"), ("String"), (""), none, none, none⟩] : List FieldDesc)
      ∧ lastSegment ("b.*") = ("*"))
    ∧ (∃ e, unflattenAndResolveTypes
          [⟨("a"), ("String"), (""), none, none, none⟩,
           ⟨("b.c"), ("Number"), (""), none, none, none⟩,
           ⟨("b.*"), ("String"), (""), none, none, none⟩] = .error e) :=
  ⟨⟨by decide, by decide⟩,
    c6_trailing_star_aborts_build _ ⟨("b.*"), ("String"), (""), none, none, none⟩
      (by decide) (by decide)⟩

/-! ### Claim C7, counterexample -/

/-- C7 counterexample: swapping the two equal-depth descriptors `a.x` and
`b.y` — siblings of the two different (synthesized) parents `a` and `b` —
changes the order in which those parents are created in the root, so the two
renderings are not byte-identical. -/
theorem c7_cross_parent_reorder_changes_rendering :
    renderEntityFields
        [⟨("a.x"), ("String"), (""), none, none, none⟩,
         ⟨("b.y"), ("String"), (""), none, none, none⟩]
      = .ok ("\x7b\na: \x7b\nx: string;\n\x7d;\nb: \x7b\ny: string;\n\x7d;\n\x7d")
    ∧ renderEntityFields
        [⟨("b.y"), ("String"), (""), none, none, none⟩,
         ⟨("a.x"), ("String"), (""), none, none, none⟩]
      = .ok ("\x7b\nb: \x7b\ny: string;\n\x7d;\na: \x7b\nx: string;\n\x7d;\n\x7d")
    ∧ (("\x7b\na: \x7b\nx: string;\n\x7d;\nb: \x7b\ny: string;\n\x7d;\n\x7d") : String)
        ≠ ("\x7b\nb: \x7b\ny: string;\n\x7d;\na: \x7b\nx: string;\n\x7d;\n\x7d") :=
  ⟨by decide, by decide, by decide⟩

/-- C7 (amended): equal-depth siblings of the same parent keep their relative
input order.  For an entity field list with pairwise-distinct paths in which
descriptor `d1` precedes descriptor `d2` and both of their paths name
children (`x` and `y`) of the same parent position `segsP`, any tree the
builder returns has an object at `segsP` whose stored property list carries
`x` before `y`; and when neither name is a JavaScript array-index name, the
`Object.entries` enumeration the emitter walks (which moves array-index names
ahead of all other keys, in numeric order) also yields `x` before `y`.  The
`__proto__` hypothesis scopes the statement to names for which a JS property
assignment creates an ordinary own property, where the embedding is
faithful. -/
theorem c7_same_parent_siblings_keep_input_order
    (items : List FieldDesc) (d1 d2 : FieldDesc) (segsP : List String) (x y : String)
    (hnodup : (items.map FieldDesc.valueName).Nodup)
    (hsub : List.Sublist [d1, d2] items)
    (hx : splitCh '.' d1.valueName = segsP ++ [x])
    (hy : splitCh '.' d2.valueName = segsP ++ [y])
    (_hproto : ∀ d ∈ items, ("__proto__") ∉ splitCh '.' d.valueName) :
    ∀ tree, unflattenAndResolveTypes items = .ok tree →
      ∃ props o j, getAtPath tree segsP = some (.obj props o j)
        ∧ List.Sublist [x, y] (props.map Prod.fst)
        ∧ (isArrayIndexName x = false → isArrayIndexName y = false →
            List.Sublist [x, y] ((jsEntries (renderProps props)).map Prod.fst)) := by
  have hlen1 : (splitCh '.' d1.valueName).length = segsP.length + 1 := by
    rw [hx]
    simp
  have hlen2 : (splitCh '.' d2.valueName).length = segsP.length + 1 := by
    rw [hy]
    simp
  have hdots1 : dotCount d1.valueName = segsP.length := by
    have := splitCh_length_eq d1.valueName
    omega
  have hdots2 : dotCount d2.valueName = segsP.length := by
    have := splitCh_length_eq d2.valueName
    omega
  have hsorted : List.Sublist [d1, d2] (sortByDepth items) :=
    sortByDepth_stable_pair d1 d2 items hsub (by omega)
  obtain ⟨A, B, C, hsplit⟩ := sublist_pair_split d1 d2 (sortByDepth items) hsorted
  have hpw := sortByDepth_pairwise items
  rw [hsplit] at hpw
  have hpwA := List.pairwise_append.mp hpw
  have hpwR := List.pairwise_cons.mp hpwA.2.1
  have hpwB := List.pairwise_append.mp hpwR.2
  have hAle : ∀ b ∈ A, dotCount b.valueName ≤ dotCount d1.valueName := by
    intro b hb
    exact hpwA.2.2 b hb d1 (List.mem_cons_self d1 _)
  have hd1le : ∀ b ∈ B ++ d2 :: C, dotCount d1.valueName ≤ dotCount b.valueName := hpwR.1
  have hBle : ∀ b ∈ B, dotCount b.valueName ≤ dotCount d2.valueName := by
    intro b hb
    exact hpwB.2.2 b hb d2 (List.mem_cons_self d2 _)
  have hCle : ∀ b ∈ C, dotCount d2.valueName ≤ dotCount b.valueName :=
    (List.pairwise_cons.mp hpwB.2.1).1
  have hnamepw : (A ++ d1 :: (B ++ d2 :: C)).Pairwise
      (fun a b => ¬ a.valueName = b.valueName) := by
    have hperm := sortByDepth_perm items
    rw [hsplit] at hperm
    have hnd : ((A ++ d1 :: (B ++ d2 :: C)).map FieldDesc.valueName).Nodup :=
      ((hperm.map FieldDesc.valueName).nodup_iff).mpr hnodup
    rw [List.Nodup, List.pairwise_map] at hnd
    exact hnd
  have hnA := List.pairwise_append.mp hnamepw
  have hnR := List.pairwise_cons.mp hnA.2.1
  have hnB := List.pairwise_append.mp hnR.2
  have hAd2 : ∀ b ∈ A, ¬ b.valueName = d2.valueName := by
    intro b hb
    exact hnA.2.2 b hb d2 (by simp)
  have hd1d2 : ¬ d1.valueName = d2.valueName := hnR.1 d2 (by simp)
  have hBd2 : ∀ b ∈ B, ¬ b.valueName = d2.valueName := by
    intro b hb
    exact hnB.2.2 b hb d2 (List.mem_cons_self d2 _)
  have hxy : ¬ x = y := by
    intro he
    apply hd1d2
    apply splitCh_injective '.'
    rw [hx, hy, he]
  have hfront1 : (splitCh '.' d1.valueName).dropLast = segsP := by
    rw [hx, dropLast_append_of_ne_nil _ _ (by simp)]
    simp
  have hlast1 : (splitCh '.' d1.valueName).getLastD ("") = x := by
    rw [hx]
    exact List.getLastD_concat _ _ _
  have hfront2 : (splitCh '.' d2.valueName).dropLast = segsP := by
    rw [hy, dropLast_append_of_ne_nil _ _ (by simp)]
    simp
  have hlast2 : (splitCh '.' d2.valueName).getLastD ("") = y := by
    rw [hy]
    exact List.getLastD_concat _ _ _
  intro tree htree
  rw [unflattenAndResolveTypes, hsplit, buildTree_append] at htree
  cases hA : buildTree (.obj [] none none) A with
  | error e =>
    rw [hA] at htree
    simp at htree
  | ok r1 =>
    rw [hA] at htree
    have htree1 : buildTree r1 (d1 :: (B ++ d2 :: C)) = .ok tree := htree
    rw [buildTree] at htree1
    cases hd1 : addItem r1 d1 with
    | error e =>
      rw [hd1] at htree1
      simp at htree1
    | ok r2 =>
      rw [hd1] at htree1
      have htree2 : buildTree r2 (B ++ d2 :: C) = .ok tree := htree1
      rw [buildTree_append] at htree2
      cases hB : buildTree r2 B with
      | error e =>
        rw [hB] at htree2
        simp at htree2
      | ok r3 =>
        rw [hB] at htree2
        have htree3 : buildTree r3 (d2 :: C) = .ok tree := htree2
        rw [buildTree] at htree3
        cases hd2 : addItem r3 d2 with
        | error e =>
          rw [hd2] at htree3
          simp at htree3
        | ok r4 =>
          rw [hd2] at htree3
          have htree4 : buildTree r4 C = .ok tree := htree3
          have hd1w : walkAssign r1 segsP x d1 = .ok r2 := by
            have h0 : walkAssign r1 ((splitCh '.' d1.valueName).dropLast)
                ((splitCh '.' d1.valueName).getLastD ("")) d1 = .ok r2 := hd1
            rwa [hfront1, hlast1] at h0
          have hd2w : walkAssign r3 segsP y d2 = .ok r4 := by
            have h0 : walkAssign r3 ((splitCh '.' d2.valueName).dropLast)
                ((splitCh '.' d2.valueName).getLastD ("")) d2 = .ok r4 := hd2
            rwa [hfront2, hlast2] at h0
          have hxstar : ¬ x = ("*") := walk_ok_last_ne_star hd1w
          have habs0 : ∀ props o j,
              getAtPath (.obj [] none none : AnyType) segsP = some (.obj props o j) →
              y ∉ props.map Prod.fst := by
            intro props o j hat
            have hp := getAtPath_objsEmpty segsP (.obj [] none none) props o j
              (by rfl) hat
            subst hp
            simp
          have habs1 : ∀ props o j, getAtPath r1 segsP = some (.obj props o j) →
              y ∉ props.map Prod.fst := by
            refine buildTree_preserve
              (fun r => ∀ props o j, getAtPath r segsP = some (.obj props o j) →
                y ∉ props.map Prod.fst) A (.obj [] none none) r1 ?_ hA habs0
            intro b hb r rx hab hpre
            have e1 := splitCh_length_eq b.valueName
            have e2 : (splitCh '.' b.valueName).dropLast.length
                = (splitCh '.' b.valueName).length - 1 := List.length_dropLast _
            have e3 := hAle b hb
            have hlenb : (splitCh '.' b.valueName).dropLast.length ≤ segsP.length := by
              omega
            have hneb : (splitCh '.' b.valueName).dropLast
                ++ [(splitCh '.' b.valueName).getLastD ("")] ≠ segsP ++ [y] := by
              rw [dropLast_append_getLastD _ _ (splitCh_ne_nil '.' b.valueName), ← hy]
              intro he
              exact hAd2 b hb (splitCh_injective '.' _ _ he)
            exact walk_preserves_absent ((splitCh '.' b.valueName).dropLast) segsP
              r rx ((splitCh '.' b.valueName).getLastD ("")) b y hab hlenb hneb hpre
          have habs2 : ∀ props o j, getAtPath r2 segsP = some (.obj props o j) →
              y ∉ props.map Prod.fst := by
            refine walk_preserves_absent segsP segsP r1 r2 x d1 y hd1w (Nat.le_refl _)
              ?_ habs1
            intro he
            simp at he
            exact hxy he
          obtain ⟨leaf1, hres1, hat1⟩ := walk_ok_leaf segsP r1 r2 x d1 hd1w
          obtain ⟨props2, o2, j2, hat2, hget2⟩ := getAtPath_snoc_obj segsP r2 leaf1 x
            hxstar hat1
          have hxin2 : x ∈ props2.map Prod.fst := getProp_some_mem _ _ _ hget2
          have hinv3 : (∃ props o j, getAtPath r3 segsP = some (.obj props o j)
                ∧ x ∈ props.map Prod.fst)
              ∧ (∀ props o j, getAtPath r3 segsP = some (.obj props o j) →
                y ∉ props.map Prod.fst) := by
            refine buildTree_preserve
              (fun r => (∃ props o j, getAtPath r segsP = some (.obj props o j)
                  ∧ x ∈ props.map Prod.fst)
                ∧ (∀ props o j, getAtPath r segsP = some (.obj props o j) →
                  y ∉ props.map Prod.fst)) B r2 r3 ?_ hB
              ⟨⟨props2, o2, j2, hat2, hxin2⟩, habs2⟩
            intro b hb r rx hab hpre
            obtain ⟨⟨props, o, j, hat, hxin⟩, habsr⟩ := hpre
            have hbmem : b ∈ B ++ d2 :: C := List.mem_append_left _ hb
            have e1 := splitCh_length_eq b.valueName
            have e2 : (splitCh '.' b.valueName).dropLast.length
                = (splitCh '.' b.valueName).length - 1 := List.length_dropLast _
            have e3 := hd1le b hbmem
            have e4 := hBle b hb
            constructor
            · have hlenb : segsP.length
                  ≤ (splitCh '.' b.valueName).dropLast.length + 1 := by
                omega
              have hneb : (splitCh '.' b.valueName).dropLast
                  ++ [(splitCh '.' b.valueName).getLastD ("")] ≠ segsP := by
                rw [dropLast_append_getLastD _ _ (splitCh_ne_nil '.' b.valueName)]
                intro he
                have := congrArg List.length he
                omega
              obtain ⟨props2x, o2x, j2x, hat2x, hd⟩ := walk_keys
                ((splitCh '.' b.valueName).dropLast) segsP r rx
                ((splitCh '.' b.valueName).getLastD ("")) b props o j hab hat hlenb hneb
              refine ⟨props2x, o2x, j2x, hat2x, ?_⟩
              rcases hd with hd | ⟨k, hk1, hk2, hk3⟩
              · rw [hd]
                exact hxin
              · rw [hk2]
                exact List.mem_append_left _ hxin
            · have hlenb2 : (splitCh '.' b.valueName).dropLast.length
                  ≤ segsP.length := by
                omega
              have hneb2 : (splitCh '.' b.valueName).dropLast
                  ++ [(splitCh '.' b.valueName).getLastD ("")] ≠ segsP ++ [y] := by
                rw [dropLast_append_getLastD _ _ (splitCh_ne_nil '.' b.valueName), ← hy]
                intro he
                exact hBd2 b hb (splitCh_injective '.' _ _ he)
              exact walk_preserves_absent ((splitCh '.' b.valueName).dropLast) segsP
                r rx ((splitCh '.' b.valueName).getLastD ("")) b y hab hlenb2 hneb2 habsr
          obtain ⟨⟨props3, o3, j3, hat3, hxin3⟩, habs3⟩ := hinv3
          have hyabs3 : y ∉ props3.map Prod.fst := habs3 props3 o3 j3 hat3
          obtain ⟨leaf2, hres2, hat4⟩ := walk_exact_keys segsP r3 r4 y d2
            props3 o3 j3 hd2w hat3
          have hkeys4 : (setProp props3 y leaf2).map Prod.fst
              = props3.map Prod.fst ++ [y] := by
            rw [setProp_not_mem props3 y leaf2 hyabs3]
            simp
          have hxy4 : List.Sublist [x, y] ((setProp props3 y leaf2).map Prod.fst) := by
            rw [hkeys4]
            exact List.Sublist.append (List.singleton_sublist.mpr hxin3)
              (List.Sublist.refl [y])
          have hinvC : ∃ props o j, getAtPath tree segsP = some (.obj props o j)
              ∧ List.Sublist [x, y] (props.map Prod.fst) := by
            refine buildTree_preserve
              (fun r => ∃ props o j, getAtPath r segsP = some (.obj props o j)
                ∧ List.Sublist [x, y] (props.map Prod.fst)) C r4 tree ?_ htree4
              ⟨setProp props3 y leaf2, o3, j3, hat4, hxy4⟩
            intro b hb r rx hab hpre
            obtain ⟨props, o, j, hat, hso⟩ := hpre
            have e1 := splitCh_length_eq b.valueName
            have e2 : (splitCh '.' b.valueName).dropLast.length
                = (splitCh '.' b.valueName).length - 1 := List.length_dropLast _
            have e3 := hCle b hb
            have hlenb : segsP.length ≤ (splitCh '.' b.valueName).dropLast.length + 1 := by
              omega
            have hneb : (splitCh '.' b.valueName).dropLast
                ++ [(splitCh '.' b.valueName).getLastD ("")] ≠ segsP := by
              rw [dropLast_append_getLastD _ _ (splitCh_ne_nil '.' b.valueName)]
              intro he
              have := congrArg List.length he
              omega
            obtain ⟨props2x, o2x, j2x, hat2x, hd⟩ := walk_keys
              ((splitCh '.' b.valueName).dropLast) segsP r rx
              ((splitCh '.' b.valueName).getLastD ("")) b props o j hab hat hlenb hneb
            refine ⟨props2x, o2x, j2x, hat2x, ?_⟩
            rcases hd with hd | ⟨k, hk1, hk2, hk3⟩
            · rw [hd]
              exact hso
            · rw [hk2]
              exact hso.trans (List.sublist_append_left _ _)
          obtain ⟨props, o, j, hat, hso⟩ := hinvC
          refine ⟨props, o, j, hat, hso, ?_⟩
          intro hxi hyi
          apply keys_sublist_jsEntries
          · rw [renderProps_map_fst]
            exact hso
          · exact hxi
          · exact hyi

/-- C7 witness: the amended theorem applied at the concrete list
`[p.b:String, q:Number, p.a:Boolean]` — `p.b` precedes `p.a`, both children of
the parent `p` — and at the tree this list actually builds, in which the `p`
node stores `b` before `a` and the enumeration agrees. -/
theorem c7_witness :
    ((([⟨("p.b"), ("String"), (""), none, none, none⟩,
        ⟨("q"), ("Number"), (""), none, none, none⟩,
        ⟨("p.a"), ("Boolean"), (""), none, none, none⟩] : List FieldDesc).map
          FieldDesc.valueName).Nodup
      ∧ List.Sublist
          [⟨("p.b"), ("String"), (""), none, none, none⟩,
           ⟨("p.a"), ("Boolean"), (""), none, none, none⟩]
          ([⟨("p.b"), ("String"), (""), none, none, none⟩,
            ⟨("q"), ("Number"), (""), none, none, none⟩,
            ⟨("p.a"), ("Boolean"), (""), none, none, none⟩] : List FieldDesc)
      ∧ splitCh '.' ("p.b") = [("p")] ++ [("b")]
      ∧ splitCh '.' ("p.a") = [("p")] ++ [("a")]
      ∧ (∀ d ∈ ([⟨("p.b"), ("String"), (""), none, none, none⟩,
            ⟨("q"), ("Number"), (""), none, none, none⟩,
            ⟨("p.a"), ("Boolean"), (""), none, none, none⟩] : List FieldDesc),
          ("__proto__") ∉ splitCh '.' d.valueName)
      ∧ unflattenAndResolveTypes
          [⟨("p.b"), ("String"), (""), none, none, none⟩,
           ⟨("q"), ("Number"), (""), none, none, none⟩,
           ⟨("p.a"), ("Boolean"), (""), none, none, none⟩]
        = .ok (.obj [(("q"), .prim ("number") none (some (""))),
            (("p"), .obj [(("b"), .prim ("string") none (some (""))),
              (("a"), .prim ("boolean") none (some ("")))] none none)] none none))
    ∧ (∃ props o j,
        getAtPath (.obj [(("q"), .prim ("number") none (some (""))),
            (("p"), .obj [(("b"), .prim ("string") none (some (""))),
              (("a"), .prim ("boolean") none (some ("")))] none none)] none none)
          [("p")] = some (.obj props o j)
        ∧ List.Sublist [("b"), ("a")] (props.map Prod.fst)
        ∧ (isArrayIndexName ("b") = false → isArrayIndexName ("a") = false →
            List.Sublist [("b"), ("a")]
              ((jsEntries (renderProps props)).map Prod.fst))) :=
  ⟨⟨by decide,
    List.Sublist.cons₂ _ (List.Sublist.cons _ (List.Sublist.cons₂ _ List.Sublist.slnil)),
    by decide, by decide, by decide, rfl⟩,
    c7_same_parent_siblings_keep_input_order
      [⟨("p.b"), ("String"), (""), none, none, none⟩,
       ⟨("q"), ("Number"), (""), none, none, none⟩,
       ⟨("p.a"), ("Boolean"), (""), none, none, none⟩]
      ⟨("p.b"), ("String"), (""), none, none, none⟩
      ⟨("p.a"), ("Boolean"), (""), none, none, none⟩
      [("p")] ("b") ("a")
      (by decide)
      (List.Sublist.cons₂ _ (List.Sublist.cons _ (List.Sublist.cons₂ _ List.Sublist.slnil)))
      (by decide) (by decide) (by decide)
      (.obj [(("q"), .prim ("number") none (some (""))),
        (("p"), .obj [(("b"), .prim ("string") none (some (""))),
          (("a"), .prim ("boolean") none (some ("")))] none none)] none none)
      rfl⟩

/-! ### Claim C8 -/

/-- C8 counterexample: the error thrown for an unknown declared type is
exactly `Unknown type: <name>`; for the descriptor with path `someField` and
type `Widget` the message does not contain the field path anywhere
(`someField` is not an infix of it), so the claim that the error surfaces both the type
name and the field path fails. -/
theorem c8_unknown_type_error_lacks_field_path :
    resolveType ⟨("someField"), ("Widget"), (""), none, none, none⟩
        = .error ("Unknown type: Widget")
    ∧ ¬ (("someField").data <:+: ("Unknown type: Widget").data) :=
  ⟨rfl, by decide⟩

/-- C8 (amended): a declared type outside the fixed vocabulary (not an
`Array<`-prefixed type and none of `Boolean`/`String`/`Number`/`Object`/`Any`)
makes the resolver throw a fatal error whose message surfaces the offending
type name — `Unknown type: <name>` — but not the field path. -/
theorem c8_unknown_type_error_names_the_type (f : FieldDesc)
    (harr : strStartsWith f.valueType ("Array<") = false)
    (h1 : f.valueType ≠ ("Boolean")) (h2 : f.valueType ≠ ("String"))
    (h3 : f.valueType ≠ ("Number")) (h4 : f.valueType ≠ ("Object"))
    (h5 : f.valueType ≠ ("Any")) :
    resolveType f = .error (("Unknown type: ") ++ f.valueType) := by
  rw [resolveType, getBaseType]
  simp [getBaseTypeF, harr, h1, h2, h3, h4, h5, Except.map]

/-- C8 witness: the amended theorem applied to the `Widget` descriptor. -/
theorem c8_witness :
    (strStartsWith ("Widget") ("Array<") = false ∧ ("Widget" : String) ≠ ("Boolean"))
    ∧ resolveType ⟨("someField"), ("Widget"), (""), none, none, none⟩
        = .error (("Unknown type: ") ++ ("Widget")) :=
  ⟨⟨by decide, by decide⟩,
    c8_unknown_type_error_names_the_type ⟨("someField"), ("Widget"), (""), none, none, none⟩
      (by decide) (by decide) (by decide) (by decide) (by decide) (by decide)⟩

/-! ### Claim C9 -/

/-- C9: an entity with no field descriptors short-circuits to the fixed
`<type>: undefined;` marker (tab-prefixed for responses) without consulting
the builder or emitter, and that marker is never the opaque-object rendering:
the builder/emitter pair applied to an empty list would yield `JsonObject`,
and the marker differs from the entry that rendering would produce. -/
theorem c9_empty_fields_emit_fixed_marker (ev : OBSEventM) (req : OBSRequestM)
    (he : ev.dataFields = []) (hr : req.responseFields = []) :
    genEventEntry ev = .ok (ev.eventType ++ (": undefined;"))
    ∧ genResponseEntry req = .ok (("\t") ++ req.requestType ++ (": undefined;"))
    ∧ renderEntityFields [] = .ok ("JsonObject")
    ∧ genEventEntry ev ≠ .ok (ev.eventType ++ (": JsonObject;"))
    ∧ genResponseEntry req ≠ .ok (("\t") ++ req.requestType ++ (": JsonObject;")) := by
  have hm1 : genEventEntry ev = .ok (ev.eventType ++ (": undefined;")) := by
    simp [genEventEntry, he]
  have hm2 : genResponseEntry req = .ok (("\t") ++ req.requestType ++ (": undefined;")) := by
    simp [genResponseEntry, hr]
  refine ⟨hm1, hm2, by decide, ?_, ?_⟩
  · rw [hm1]
    intro hc
    injection hc with hc2
    exact strAppend_right_ne _ _ _ (by decide) hc2
  · rw [hm2]
    intro hc
    injection hc with hc2
    exact strAppend_right_ne _ _ _ (by decide) hc2

/-- C9 witness: the theorem applied to a concrete empty-fields event and
request. -/
theorem c9_witness :
    ((⟨("E"), []⟩ : OBSEventM).dataFields = []
      ∧ (⟨("R"), [], []⟩ : OBSRequestM).responseFields = [])
    ∧ genEventEntry ⟨("E"), []⟩ = .ok (("E" : String) ++ (": undefined;"))
    ∧ genResponseEntry ⟨("R"), [], []⟩ = .ok (("\t") ++ ("R") ++ (": undefined;")) := by
  have h := c9_empty_fields_emit_fixed_marker ⟨("E"), []⟩ ⟨("R"), [], []⟩ rfl rfl
  exact ⟨⟨rfl, rfl⟩, h.1, h.2.1⟩

/-! ### Claim C10 -/

/-- C10: the builder does not disturb its input: the array binding of the caller
after the call is the very list passed in (`unflattenCallerView` records the
absence of writes: the source only takes `slice(0)` of the input and reads
descriptor fields), the result is computed from it alone, and the internal
depth-sorted copy is a permutation of the input — the same descriptor records,
none dropped, duplicated or replaced. -/
theorem c10_builder_leaves_caller_list_unchanged (l : List FieldDesc) :
    (unflattenCallerView l).2 = l
    ∧ (unflattenCallerView l).1 = unflattenAndResolveTypes l
    ∧ List.Perm (sortByDepth l) l :=
  ⟨rfl, rfl, sortByDepth_perm l⟩

/-! ### Claim C2 -/

/-- Enumerating a one-property record gives back that property, whichever
block of the enumeration it lands in. -/
theorem jsEntries_singleton {α : Type} (k : String) (v : α) :
    jsEntries [(k, v)] = [(k, v)] := by
  by_cases h : isArrayIndexName k <;>
    simp [jsEntries, sortByIdx, insertByIdx, h]

/-- Processing one descriptor whose path is a single dot-free, non-`*` segment
against an object node: the walk is empty and the resolved leaf is assigned
directly under the path name. -/
theorem addItem_single_segment (props : List (String × AnyType)) (o : Option Bool)
    (j : Option String) (item : FieldDesc)
    (hdot : ('.' : Char) ∉ item.valueName.data)
    (hstar : item.valueName ≠ ("*")) :
    addItem (.obj props o j) item
      = (resolveType item).map (fun leaf => .obj (setProp props item.valueName leaf) o j) := by
  rw [addItem, splitCh_eq_self '.' _ hdot]
  simp [walkAssign, hstar, List.dropLast, List.getLastD_cons, List.getLastD_nil]

/-- C2 (amended): for every descriptor with a single-segment path, the
`Object`-typed version and the `Any`-typed version render to the same entity
text except for the spelling of the leaf type itself: the empty `ObjectNode`
is widened to the opaque-JSON-*object* spelling `JsonObject`, while `Any`
renders as the opaque-JSON-*value* spelling `JsonValue` — the two renderings
share a common prefix and suffix and differ exactly in that one spelling (so
they are not byte-identical, as the counterexample records). -/
theorem c2_empty_object_widens_to_jsonobject_spelling (f : FieldDesc)
    (hdot : ('.' : Char) ∉ f.valueName.data)
    (hstar : f.valueName ≠ ("*")) :
    ∃ pre post : String,
      renderEntityFields [{ f with valueType := ("Object") }]
          = .ok (pre ++ ("JsonObject") ++ post)
      ∧ renderEntityFields [{ f with valueType := ("Any") }]
          = .ok (pre ++ ("JsonValue") ++ post) := by
  have hresO : resolveType { f with valueType := ("Object") }
      = .ok (.obj [] (annotateOpt f) (some (annotateJsdoc f))) := rfl
  have hresA : resolveType { f with valueType := ("Any") }
      = .ok (.jsonvalue [] (annotateOpt f) (some (annotateJsdoc f))) := rfl
  have haO := addItem_single_segment [] none none { f with valueType := ("Object") } hdot hstar
  have haA := addItem_single_segment [] none none { f with valueType := ("Any") } hdot hstar
  rw [hresO] at haO
  rw [hresA] at haA
  have hunflO : unflattenAndResolveTypes [{ f with valueType := ("Object") }]
      = .ok (.obj [(f.valueName, .obj [] (annotateOpt f) (some (annotateJsdoc f)))] none none) := by
    rw [unflattenAndResolveTypes]
    show buildTree (.obj [] none none) [{ f with valueType := ("Object") }] = _
    simp [buildTree, haO, Except.map, setProp]
  have hunflA : unflattenAndResolveTypes [{ f with valueType := ("Any") }]
      = .ok (.obj [(f.valueName, .jsonvalue [] (annotateOpt f) (some (annotateJsdoc f)))] none none) := by
    rw [unflattenAndResolveTypes]
    show buildTree (.obj [] none none) [{ f with valueType := ("Any") }] = _
    simp [buildTree, haA, Except.map, setProp]
  have hrO : renderEntityFields [{ f with valueType := ("Object") }]
      = .ok (stringifyTypes (.obj [(f.valueName, .obj [] (annotateOpt f) (some (annotateJsdoc f)))] none none)) := by
    rw [renderEntityFields, hunflO]
    rfl
  have hrA : renderEntityFields [{ f with valueType := ("Any") }]
      = .ok (stringifyTypes (.obj [(f.valueName, .jsonvalue [] (annotateOpt f) (some (annotateJsdoc f)))] none none)) := by
    rw [renderEntityFields, hunflA]
    rfl
  by_cases hj : annotateJsdoc f = ("")
  · refine ⟨("\x7b") ++ ("\n")
        ++ (f.valueName ++ (if (AnyType.obj ([] : List (String × AnyType)) (annotateOpt f) (some (annotateJsdoc f))).getOptional = some true then ("?:") else (":")) ++ (" ")),
      (";") ++ ("\n") ++ ("\x7d"), ?_, ?_⟩
    · rw [hrO]
      refine congrArg Except.ok ?_
      refine String.ext ?_
      simp [stringifyTypes, renderProps, jsEntries_singleton, joinNl, strTruthy, hj,
        AnyType.getJsdoc, AnyType.getOptional, String.data_append, List.append_assoc]
    · rw [hrA]
      refine congrArg Except.ok ?_
      refine String.ext ?_
      simp [stringifyTypes, renderProps, jsEntries_singleton, joinNl, strTruthy, hj,
        AnyType.getJsdoc, AnyType.getOptional, String.data_append, List.append_assoc]
  · refine ⟨("\x7b") ++ ("\n")
        ++ (formatJsDoc (splitCh '\n' (annotateJsdoc f)) ++ ("\n"))
        ++ (f.valueName ++ (if (AnyType.obj ([] : List (String × AnyType)) (annotateOpt f) (some (annotateJsdoc f))).getOptional = some true then ("?:") else (":")) ++ (" ")),
      (";") ++ ("\n") ++ ("\x7d"), ?_, ?_⟩
    · rw [hrO]
      refine congrArg Except.ok ?_
      refine String.ext ?_
      simp [stringifyTypes, renderProps, jsEntries_singleton, joinNl, strTruthy, hj,
        AnyType.getJsdoc, AnyType.getOptional, String.data_append, List.append_assoc]
    · rw [hrA]
      refine congrArg Except.ok ?_
      refine String.ext ?_
      simp [stringifyTypes, renderProps, jsEntries_singleton, joinNl, strTruthy, hj,
        AnyType.getJsdoc, AnyType.getOptional, String.data_append, List.append_assoc]

/-- C2 witness: the amended theorem applied to a concrete single-segment
descriptor. -/
theorem c2_witness :
    (('.' : Char) ∉ (("data" : String)).data ∧ ("data" : String) ≠ ("*"))
    ∧ ∃ pre post : String,
        renderEntityFields [⟨("data"), ("Object"), (""), none, none, none⟩]
            = .ok (pre ++ ("JsonObject") ++ post)
        ∧ renderEntityFields [⟨("data"), ("Any"), (""), none, none, none⟩]
            = .ok (pre ++ ("JsonValue") ++ post) :=
  ⟨⟨by decide, by decide⟩,
    c2_empty_object_widens_to_jsonobject_spelling
      ⟨("data"), ("Object"), (""), none, none, none⟩ (by decide) (by decide)⟩


end BuildTypes
